import Mathlib

/-!
Verification of the `cs-helper` parameter-schema extraction engine.

Shallow embedding of the repository's code:
* `src/src/utils/log.ts` — log level parsing and the emission gate of `log`.
* the runtime `parseParams` helper — `Object.assign` merge of defaults and
  host parameters, publishing the merged object as `parsedParams`.
* `src/bin/params-docs.ts` — module graph resolver (`getSourceFilesFromEntry`
  / `collectImports`), type display (`getGenericTypeDisplay`), acceptable
  values (`getAcceptableValues`), type expansion (`expandTypeToParamRows` with
  its inner `addProp`), default value folding (`resolveDefaultValue`), and the
  memoizing driver (`getParseParamsFromCode` with its cache-clearing helpers).

JavaScript `Set`s are modelled as lists used only through membership,
JavaScript objects as association lists with `Object.assign` update semantics,
and thrown exceptions as `Except Unit` values.
-/

namespace CsHelper

/-! ## Log utility (src/src/utils/log.ts) -/

/-- `parseLogLevel` from `src/src/utils/log.ts` (lines 36-65): maps a level
name or numeric string to its numeric level, defaulting to 1 (info). -/
def parseLogLevel (level : String) : Int :=
  if level = "debug" ∨ level = "0" then 0
  else if level = "info" ∨ level = "1" then 1
  else if level = "warn" ∨ level = "2" then 2
  else if level = "error" ∨ level = "3" then 3
  else if level = "emergency" ∨ level = "4" then 4
  else if level = "silent" ∨ level = "10" then 10
  else 1

/-- Argument of `log`: JavaScript `number | string`. -/
inductive LogLevelArg where
  | num (n : Int)
  | str (s : String)

/-- Numeric value of a `log` level argument, after the string branch of `log`
has applied `parseLogLevel` (line 160-162 of log.ts). -/
def logLevelNum : LogLevelArg → Int
  | .num n => n
  | .str s => parseLogLevel s

/-- The emission gate of `log` (src/src/utils/log.ts lines 156-171): a string
level is parsed, a level above warn is clamped down to warn, and the message
reaches `addToQueue` (and hence `customScript.log`) iff the clamped level is
at least the current log level. -/
def logVisible (currentLevel : Int) (level : LogLevelArg) : Bool :=
  let lv := logLevelNum level
  let lv := if lv > parseLogLevel "warn" then parseLogLevel "warn" else lv
  decide (lv ≥ currentLevel)

/-! ## Runtime `parseParams` helper (src/unnamed/part_002, lines 41-49) -/

/-- One string-keyed property write, shared by the model of JavaScript
objects (`Object.assign`) and of `Map.set`: an existing key keeps its
position and gets the new value, a new key is appended (JavaScript property
and `Map` insertion order). -/
def setKey {β : Type} (m : List (String × β)) (k : String) (v : β) :
    List (String × β) :=
  if m.any (fun e => e.1 = k) then
    m.map (fun e => if e.1 = k then (k, v) else e)
  else
    m ++ [(k, v)]

/-- `Object.assign(base, overlay)`: writes every overlay property onto the
base object, in overlay order. -/
def objAssign {β : Type} (base overlay : List (String × β)) :
    List (String × β) :=
  overlay.foldl (fun acc kv => setKey acc kv.1 kv.2) base

/-- String-keyed property read (JavaScript object access / `Map.get`; keys
are unique in a materialized object, so the first match is the value). -/
def lookupKey {β : Type} (m : List (String × β)) (k : String) : Option β :=
  (m.find? (fun e => e.1 = k)).map (·.2)

/-- The runtime helper `parseParams` (src/unnamed/part_002 lines 41-49):
`Object.assign({}, defaultParams, cs.parameters)`; the merged object is
assigned to `parsedParams` on the chosen global context and returned.  The
first component is the returned object, the second the `parsedParams` value
the context holds afterwards.  `cs.parameters` is optional; `Object.assign`
ignores an `undefined` source. -/
def parseParams (defaultParams : List (String × String))
    (csParameters : Option (List (String × String))) :
    List (String × String) × Option (List (String × String)) :=
  let params := objAssign (objAssign [] defaultParams) (csParameters.getD [])
  (params, some params)

/-! ## Module Graph Resolver (src/bin/params-docs.ts, lines 25-142)

The filesystem with the already-resolved import edges is modelled as an
association list `Graph` from an existing file's canonical path to the list of
resolved local-import targets found in it, in source-scan order.  A path that
is not a key does not exist (`fs.existsSync` is false).  Every specifier
resolution performed by `resolveModuleSpecifier` (relative-path check,
extension and `index` probing, dropping unresolvable specifiers) happens
before an edge enters this list, and paths are taken as already canonical
(`pathLib.resolve` is the identity on them). -/

abbrev Graph := List (String × List String)

/-- Reading an existing file and scanning its AST for resolved local-import
targets: `some` edge list when the file exists, `none` otherwise. -/
def readImports (fs : Graph) (path : String) : Option (List String) :=
  (fs.find? (fun e => e.1 = path)).map (·.2)

/-- The set of existing files. -/
def graphKeys (fs : Graph) : List String := fs.map (·.1)

/-- `collectImports` (src/bin/params-docs.ts lines 64-137): the visited set is
checked and extended before the existence check; an existing file is appended
to the result and its imports are traversed depth-first in source order.  The
state is `(visited, result)`.  The JavaScript recursion carries no fuel; the
fuel argument only bounds nesting depth of this embedding, and
`collect_fuel_stable` below shows any fuel above the number of existing files
gives the same answer. -/
def collectImports (fs : Graph) : Nat → String → List String × List String →
    List String × List String
  | 0, _, st => st
  | fuel + 1, path, st =>
    if path ∈ st.1 then st
    else
      let visited := path :: st.1
      match readImports fs path with
      | none => (visited, st.2)
      | some imps =>
          imps.foldl (fun acc imp => collectImports fs fuel imp acc)
            (visited, st.2 ++ [path])

/-- `getSourceFilesFromEntry` (src/bin/params-docs.ts lines 25-142): runs
`collectImports` from the entry path on an empty state and returns the
collected file list.  The fuel `fs.length + 1` dominates the recursion depth
of the JavaScript original. -/
def getSourceFilesFromEntry (fs : Graph) (entryFile : String) : List String :=
  (collectImports fs (fs.length + 1) entryFile ([], [])).2

/-- One resolved local-import edge: file `a` exists and `b` is one of its
resolved targets. -/
def ImportEdge (fs : Graph) (a b : String) : Prop :=
  ∃ imps, readImports fs a = some imps ∧ b ∈ imps

/-- Transitive reachability along resolved local-import edges. -/
def Reachable (fs : Graph) : String → String → Prop :=
  Relation.ReflTransGen (ImportEdge fs)

/-- Number of existing files not yet visited; the decreasing measure of the
depth-first walk. -/
def unvisitedCount (fs : Graph) (visited : List String) : Nat :=
  ((graphKeys fs).filter (fun k => !(decide (k ∈ visited)))).length

/-! ## Module Graph Resolver with read failures (for the error-handling claims)

`fs.existsSync` can be true while `fs.readFileSync` throws (a directory, or an
unreadable file).  `collectImports` performs that read with no surrounding
try/catch, so the exception propagates out of `getSourceFilesFromEntry`.  A
`ReadFS` entry `(p, none)` is such an existing-but-unreadable path; `(p, some
imps)` is a readable file with its resolved import targets. -/

abbrev ReadFS := List (String × Option (List String))

/-- `fs.existsSync` plus `fs.readFileSync` on the read-failure filesystem:
`none` — the path does not exist; `some none` — it exists but reading throws;
`some (some imps)` — it reads fine. -/
def readImportsE (fs : ReadFS) (path : String) : Option (Option (List String)) :=
  (fs.find? (fun e => e.1 = path)).map (·.2)

/-- `collectImports` over the read-failure filesystem: an `Except.error ()` is
the exception `fs.readFileSync` throws, which nothing in
`getSourceFilesFromEntry` catches. -/
def collectImportsE (fs : ReadFS) : Nat → String → List String × List String →
    Except Unit (List String × List String)
  | 0, _, st => .ok st
  | fuel + 1, path, st =>
    if path ∈ st.1 then .ok st
    else
      let visited := path :: st.1
      match readImportsE fs path with
      | none => .ok (visited, st.2)
      | some none => .error ()
      | some (some imps) =>
          imps.foldlM (fun acc imp => collectImportsE fs fuel imp acc)
            (visited, st.2 ++ [path])

/-- `getSourceFilesFromEntry` over the read-failure filesystem: a read failure
anywhere in the walk escapes to the caller. -/
def getSourceFilesFromEntryE (fs : ReadFS) (entryFile : String) :
    Except Unit (List String) :=
  (collectImportsE fs (fs.length + 1) entryFile ([], [])).map (·.2)

/-! ## Extraction cache and driver (src/bin/params-docs.ts, lines 916-978,
1059-1070)

The per-call-site records are opaque to the cache, so the result type is a
parameter `α` and the whole `try` body of `getParseParamsFromCode` (graph
resolution, best-effort program construction, per-file scans with their own
`try`/`catch`) is a parameter `pipeline` that may throw.  `pathLib.resolve` is
the abstract `resolvePath`. -/

/-- Result of one `getParseParamsFromCode` call: the returned value, the cache
afterwards, whether the pipeline was run (`computed`), and whether the
`catch` branch emitted its warning (`warned`). -/
structure DriverOut (α : Type) where
  result : List α
  cache : List (String × List α)
  computed : Bool
  warned : Bool

/-- `getParseParamsFromCode` (src/bin/params-docs.ts lines 926-978): resolve
the entry path, return the cached value if present; otherwise run the whole
pipeline under `try`, caching the computed calls — or, in `catch`, warn and
cache the empty result — before returning. -/
def getParseParamsFromCode {α : Type} (pipeline : String → Except Unit (List α))
    (resolvePath : String → String) (cache : List (String × List α))
    (entryFile : String) : DriverOut α :=
  let resolvedPath := resolvePath entryFile
  match lookupKey cache resolvedPath with
  | some r => ⟨r, cache, false, false⟩
  | none =>
    match pipeline entryFile with
    | .ok allCalls => ⟨allCalls, setKey cache resolvedPath allCalls, true, false⟩
    | .error _ => ⟨[], setKey cache resolvedPath [], true, true⟩

/-- `analyzeParseParamsData` (lines 1051-1053) returns the driver result
unchanged. -/
def analyzeParseParamsData {α : Type} (pipeline : String → Except Unit (List α))
    (resolvePath : String → String) (cache : List (String × List α))
    (entryFile : String) : DriverOut α :=
  getParseParamsFromCode pipeline resolvePath cache entryFile

/-- `clearParseParamsCache` (lines 1059-1061). -/
def clearParseParamsCache {α : Type} (_cache : List (String × List α)) :
    List (String × List α) := []

/-- `clearParseParamsCacheEntry` (lines 1067-1070): drops the resolved entry
key from the cache. -/
def clearParseParamsCacheEntry {α : Type} (resolvePath : String → String)
    (cache : List (String × List α)) (entryFile : String) :
    List (String × List α) :=
  cache.filter (fun e => !(decide (e.1 = resolvePath entryFile)))

/-- Whitespace as `Number()` ignores it around a numeric string. -/
def isSpaceChar (c : Char) : Bool := c = ' ' ∨ c = '\t' ∨ c = '\n' ∨ c = '\r'

/-- Leading and trailing whitespace removal on a character list. -/
def trimChars (l : List Char) : List Char :=
  ((l.dropWhile isSpaceChar).reverse.dropWhile isSpaceChar).reverse

/-- Decimal digit characters to their value. -/
def digitsToNat (l : List Char) : Nat :=
  l.foldl (fun acc c => acc * 10 + (c.toNat - 48)) 0

/-! ## Type display (src/bin/params-docs.ts, lines 276-432)

A checker type as `getGenericTypeDisplay` observes it: `type.types` (a union
or intersection member list), `type.value` (a literal type's value, by its
JavaScript runtime kind), `type.flags` (the primitive flag bits 4 = String,
8 = Number, 16 = Boolean), a symbol whose declared type can be re-entered
(`checker.getDeclaredTypeOfSymbol`), or none of these (an object or otherwise
non-primitive type, where the `checker.typeToString` fallback does not name a
primitive and the function returns the empty string).  The `type.id` used by
the `seen` cycle guard is an explicit field. -/

inductive TSType where
  | unionTy (id : Nat) (branches : List TSType)
  | strLit (id : Nat) (value : String)
  | numLit (id : Nat) (value : Int)
  | boolLit (id : Nat) (value : Bool)
  | flagged (id : Nat) (flags : Nat)
  | aliasTy (id : Nat) (declared : TSType)
  | otherTy (id : Nat)

/-- `type.id` of a modelled checker type. -/
def idOf : TSType → Nat
  | .unionTy i _ => i
  | .strLit i _ => i
  | .numLit i _ => i
  | .boolLit i _ => i
  | .flagged i _ => i
  | .aliasTy i _ => i
  | .otherTy i => i

/-- Splitting a character list at every `|`.  Together with the `trim` the
source applies to every piece, this is `split(/\s*\|\s*/)`: the regex eats
exactly the whitespace around each pipe that the trim would remove. -/
def splitOnPipe : List Char → List (List Char)
  | [] => [[]]
  | c :: rest =>
      if c = '|' then [] :: splitOnPipe rest
      else
        match splitOnPipe rest with
        | [] => [[c]]
        | piece :: ps => (c :: piece) :: ps

/-- `r.split(/\s*\|\s*/)` up to the per-piece trim that follows it. -/
def splitBar (s : String) : List String :=
  (splitOnPipe s.toList).map (fun l => String.mk l)

/-- `arr.join(" | ")`. -/
def joinBar : List String → String
  | [] => ""
  | [s] => s
  | s :: rest => s ++ " | " ++ joinBar rest

/-- `const add = (s) => s && primitives.add(s)`: a JavaScript `Set` keeps the
first occurrence and drops the empty string. -/
def addPart (parts : List String) (s : String) : List String :=
  if s = "" then parts
  else if s ∈ parts then parts
  else parts ++ [s]

/-- `String.prototype.trim()`. -/
def trimStr (s : String) : String := String.mk (trimChars s.toList)

/-- `r.split(...).forEach((p) => add(p.trim()))`. -/
def addParts (parts : List String) (r : String) : List String :=
  (splitBar r).foldl (fun ps p => addPart ps (trimStr p)) parts

/-- Lexicographic comparison of character lists by code point, the order
JavaScript string comparison uses on these ASCII strings. -/
def charListLe : List Char → List Char → Bool
  | [], _ => true
  | _ :: _, [] => false
  | c :: cs, d :: ds =>
      if c.toNat < d.toNat then true
      else if d.toNat < c.toNat then false
      else charListLe cs ds

/-- String comparison for the sort model. -/
def strLe (a b : String) : Bool := charListLe a.toList b.toList

/-- Insertion into a sorted list of strings, the building block of the model
of JavaScript `Array.prototype.sort()` (which sorts strings lexicographically;
on the duplicate-free part lists both produce the unique sorted order). -/
def insertSorted (s : String) : List String → List String
  | [] => [s]
  | t :: ts => if strLe s t then s :: t :: ts else t :: insertSorted s ts

/-- `[...primitives].sort()` on a duplicate-free list. -/
def sortStr (l : List String) : List String := l.foldr insertSorted []

mutual

/-- `getGenericTypeDisplay` (src/bin/params-docs.ts lines 276-376): reduces a
type to `"string"`, `"number"`, `"boolean"`, a sorted `" | "`-join of those,
`"any"`, or `""`.  The `seen` set is passed through and mutated across
recursive calls exactly as the shared JavaScript `Set` is; the second
component of the result is the set afterwards. -/
def getGenericTypeDisplay (t : TSType) (seen : List Nat) : String × List Nat :=
  if idOf t ∈ seen then ("", seen)
  else
    let seen := idOf t :: seen
    match t with
    | .unionTy _ branches =>
        let (parts, seen) := displayBranches branches [] seen
        let arr := sortStr parts
        (if arr = [] then "any" else joinBar arr, seen)
    | .strLit _ _ => ("string", seen)
    | .numLit _ _ => ("number", seen)
    | .boolLit _ _ => ("boolean", seen)
    | .flagged _ f =>
        (if f &&& 4 ≠ 0 then "string"
         else if f &&& 8 ≠ 0 then "number"
         else if f &&& 16 ≠ 0 then "boolean"
         else "", seen)
    | .aliasTy _ declared =>
        let (r, seen) := getGenericTypeDisplay declared seen
        (if r ≠ "" ∧ r ≠ "any" then r else "", seen)
    | .otherTy _ => ("", seen)

/-- The `for (const t of type.types)` loop of `getGenericTypeDisplay` (lines
298-310): each branch's display is computed with the shared `seen` set, and a
non-empty, non-`"any"` display contributes its `" | "`-separated parts to the
`primitives` set. -/
def displayBranches (branches : List TSType) (parts : List String)
    (seen : List Nat) : List String × List Nat :=
  match branches with
  | [] => (parts, seen)
  | b :: rest =>
      let (r, seen) := getGenericTypeDisplay b seen
      let parts := if r ≠ "" ∧ r ≠ "any" then addParts parts r else parts
      displayBranches rest parts seen

end

mutual

/-- `getAcceptableValues` (src/bin/params-docs.ts lines 382-432): collects the
string and number literal values of a (possibly union or aliased) type, as
text, deduplicated and sorted; boolean literals are not collected. -/
def getAcceptableValues (t : TSType) (seen : List Nat) :
    List String × List Nat :=
  if idOf t ∈ seen then ([], seen)
  else
    let seen := idOf t :: seen
    match t with
    | .unionTy _ branches =>
        let (values, seen) := acceptableBranches branches [] seen
        (sortStr (values.foldl addPart []), seen)
    | .strLit _ v => ([v], seen)
    | .numLit _ v => ([toString v], seen)
    | .boolLit _ _ => ([], seen)
    | .flagged _ _ => ([], seen)
    | .aliasTy _ declared =>
        let (vs, seen) := getAcceptableValues declared seen
        (sortStr (vs.foldl addPart []), seen)
    | .otherTy _ => ([], seen)

/-- The `for (const t of type.types)` loop of `getAcceptableValues`. -/
def acceptableBranches (branches : List TSType) (values : List String)
    (seen : List Nat) : List String × List Nat :=
  match branches with
  | [] => (values, seen)
  | b :: rest =>
      let (vs, seen) := getAcceptableValues b seen
      acceptableBranches rest (values ++ vs) seen

end

/-! ## Type Schema Expander (src/bin/params-docs.ts, lines 438-533) -/

/-- `JSDocParamInfo` (lines 144-148): the parsed documentation comment of a
declaration; `password` is the optional sensitivity flag, absent = `false`. -/
structure JSDocParamInfo where
  description : String
  exampleText : String
  password : Bool

/-- `ParamRow` (lines 4-11). -/
structure ParamRow where
  name : String
  typeStr : String
  optional : Bool
  description : String
  exampleText : Option String
  acceptsValues : Option (List String)
deriving DecidableEq

/-- One property symbol as the expander observes it (lines 480-486): its name,
the `questionToken` of its declaration, the checker type
`getTypeOfSymbolAtLocation` yields, and the parsed documentation comment
`getJSDocParamInfo` recovers from the declaration. -/
structure PropSym where
  name : String
  questionToken : Bool
  propType : TSType
  jsdoc : JSDocParamInfo

/-- The structural type under expansion: `checker.getPropertiesOfType` in
order, plus the optional string-keyed and number-keyed index signature value
types. -/
structure ExpandedType where
  props : List PropSym
  stringIndex : Option TSType
  numberIndex : Option TSType

/-- `||  "any"` on the display string (line 485). -/
def orAny (s : String) : String := if s = "" then "any" else s

/-- The per-property body of the `for (const sym of props)` loop (lines
480-499): display the property type (fresh `seen` set per property),
substitute `"any"` for an empty display, reclassify a sensitivity-tagged
`"string"` as `"password"`, and attach description, example and acceptable
values. -/
def rowOfProp (p : PropSym) : ParamRow :=
  let typeStr := orAny (getGenericTypeDisplay p.propType []).1
  let typeStr := if p.jsdoc.password ∧ typeStr = "string" then "password" else typeStr
  let acceptsValues := (getAcceptableValues p.propType []).1
  { name := p.name
    typeStr := typeStr
    optional := p.questionToken
    description := p.jsdoc.description
    exampleText := if p.jsdoc.exampleText = "" then none else some p.jsdoc.exampleText
    acceptsValues := if acceptsValues = [] then none else some acceptsValues }

/-- `addProp` (lines 454-475): a name already in the `seen` set is dropped,
otherwise the row is appended and the name recorded. -/
def addProp (seen : List String) (rows : List ParamRow) (row : ParamRow) :
    List String × List ParamRow :=
  if row.name ∈ seen then (seen, rows)
  else (row.name :: seen, rows ++ [row])

/-- The property loop of `expandTypeToParamRows`, folding `addProp` over the
rows of the declared properties in source order. -/
def propRowsAux (props : List PropSym) (seen : List String)
    (rows : List ParamRow) : List String × List ParamRow :=
  match props with
  | [] => (seen, rows)
  | p :: rest =>
      let (seen, rows) := addProp seen rows (rowOfProp p)
      propRowsAux rest seen rows

/-- The rows produced for the declared properties. -/
def propRowsOf (props : List PropSym) : List ParamRow :=
  (propRowsAux props [] []).2

/-- One synthetic index-signature row (lines 503-527): pushed directly,
without the `addProp` seen-check. -/
def indexRow (name : String) (valueType : TSType) : ParamRow :=
  { name := name
    typeStr := orAny (getGenericTypeDisplay valueType []).1
    optional := false
    description := ""
    exampleText := none
    acceptsValues := none }

/-- The synthetic rows for the index signatures of the type. -/
def indexRowsOf (t : ExpandedType) : List ParamRow :=
  (match t.stringIndex with
   | some ty => [indexRow "[key: string]" ty]
   | none => []) ++
  (match t.numberIndex with
   | some ty => [indexRow "[key: number]" ty]
   | none => [])

/-- `expandTypeToParamRows` (lines 438-533) on a type that expands without a
checker exception: the deduplicated property rows followed by the index
signature rows.  (The `rows.length ? rows : null` wrapping and the `catch`
both yield `null`, which the scanner turns into the verbatim-text fallback;
the claims here concern the rows themselves.) -/
def expandTypeToParamRows (t : ExpandedType) : List ParamRow :=
  propRowsOf t.props ++ indexRowsOf t

/-- First-occurrence key dedup of the property list relative to an already
seen name set: the properties that survive `addProp`. -/
def dedupByNameAux : List PropSym → List String → List PropSym
  | [], _ => []
  | p :: rest, seen =>
      if p.name ∈ seen then dedupByNameAux rest seen
      else p :: dedupByNameAux rest (p.name :: seen)

/-- First-occurrence key dedup of the property list: the properties that
survive `addProp`. -/
def dedupByName (props : List PropSym) : List PropSym := dedupByNameAux props []

/-- First-occurrence dedup of a part list (a JavaScript `Set` built by
`addPart`). -/
def dedupFirst (l : List String) : List String := l.foldl addPart []

/-- A branch type with no further structure to recurse into: anything but a
union or an alias. -/
def isSimpleBranch : TSType → Bool
  | .unionTy _ _ => false
  | .aliasTy _ _ => false
  | _ => true

/-- Stand-alone primitive classification of a simple branch, `none` when the
branch is not reducible to a primitive (the display comes out empty). -/
def leafClass : TSType → Option String
  | .strLit _ _ => some "string"
  | .numLit _ _ => some "number"
  | .boolLit _ _ => some "boolean"
  | .flagged _ f =>
      if f &&& 4 ≠ 0 then some "string"
      else if f &&& 8 ≠ 0 then some "number"
      else if f &&& 16 ≠ 0 then some "boolean"
      else none
  | _ => none

/-! ## Default Value Evaluator (src/bin/params-docs.ts, lines 536-669)

Initializer expressions as `resolveDefaultValue` inspects them.  The claims
exercise the integer fragment of the JavaScript number semantics, so numeric
text is modelled as decimal integers: `+`, `-`, `*` agree with JavaScript
there, and `/` and `%` are modelled only where they are exact (a non-exact
quotient, like all other cases the JavaScript float rules would make finite,
never arises in the claims; division and modulo by zero — the guarded case —
are `none` exactly as `result` stays `null` in the source). -/

/-- Binary operator tokens the evaluator recognizes. -/
inductive BinOp where
  | plus | minus | star | slash | percent
deriving DecidableEq

/-- Initializer expression nodes.  `otherExpr` is any unrecognized expression
form, which only ever renders as its verbatim source text. -/
inductive DefaultExpr where
  | strLit (s : String)
  | numLit (n : Nat)
  | trueKw
  | falseKw
  | nullKw
  | paren (e : DefaultExpr)
  | binary (l : DefaultExpr) (op : BinOp) (r : DefaultExpr)
  | neg (e : DefaultExpr)
  | ident (name : String)
  | otherExpr (src : String)

/-- Source rendering of an operator token. -/
def opText : BinOp → String
  | .plus => "+"
  | .minus => "-"
  | .star => "*"
  | .slash => "/"
  | .percent => "%"

/-- `sourceCode.substring(initializer.pos, initializer.end)`: the verbatim
source text of an expression, reconstructed canonically from the node. -/
def srcOf : DefaultExpr → String
  | .strLit s => "\"" ++ s ++ "\""
  | .numLit n => toString n
  | .trueKw => "true"
  | .falseKw => "false"
  | .nullKw => "null"
  | .paren e => "(" ++ srcOf e ++ ")"
  | .binary l op r => srcOf l ++ " " ++ opText op ++ " " ++ srcOf r
  | .neg e => "-" ++ srcOf e
  | .ident name => name
  | .otherExpr src => src

/-- `Number(s)` on the decimal-integer fragment: trim, optional leading minus
sign, digits (the fragment of the JavaScript numeric grammar the claims
exercise). -/
def parseNumeric (s : String) : Option Int :=
  match trimChars s.toList with
  | [] => none
  | c :: rest =>
      if c = '-' then
        if rest ≠ [] ∧ rest.all (·.isDigit) then
          some (-(digitsToNat rest : Int))
        else none
      else if (c :: rest).all (·.isDigit) then
        some ((digitsToNat (c :: rest) : Int))
      else none

/-- `isNumericValue` (lines 538-542) on the decimal-integer fragment. -/
def isNumericValue (s : String) : Bool := (parseNumeric s).isSome

/-- The arithmetic step of the binary-expression case (lines 598-618):
`result` stays `null` for division or modulo by zero.  A non-exact quotient is
also left unreduced here (the JavaScript original would produce a float; the
claims never reach that case). -/
def applyOp (op : BinOp) (left right : Int) : Option Int :=
  match op with
  | .plus => some (left + right)
  | .minus => some (left - right)
  | .star => some (left * right)
  | .slash => if right ≠ 0 ∧ left % right = 0 then some (left / right) else none
  | .percent => if right ≠ 0 then some (Int.tmod left right) else none

/-- The regular expression `^[a-zA-Z_$][a-zA-Z0-9_$]*$` of line 643. -/
def isIdentifierText (s : String) : Bool :=
  match s.toList with
  | [] => false
  | c :: rest =>
      (c.isAlpha ∨ c = '_' ∨ c = '$') &&
      rest.all (fun d => d.isAlphanum ∨ d = '_' ∨ d = '$')

/-- The checker facility as `resolveDefaultValue` uses it for a bare
identifier (lines 633-666): `typeStrOf` is
`checker.typeToString(checker.getTypeAtLocation(ident))` and `declInitOf` is
the initializer of the declaration of
`checker.getSymbolAtLocation(ident)`. A thrown resolution exception is the
same as both yielding nothing (the `catch` swallows it). -/
structure CheckerModel where
  typeStrOf : String → Option String
  declInitOf : String → Option DefaultExpr

/-- The identifier branch after `typeStrOf` did not produce a usable literal
rendering: follow the symbol to its declaration initializer and recurse, else
fall through to the verbatim text. -/
def resolveIdentFallback (recur : DefaultExpr → String)
    (c : CheckerModel) (name : String) (verbatim : String) : String :=
  match c.declInitOf name with
  | some init => recur init
  | none => verbatim

/-- The recursion of `resolveDefaultValue` (src/bin/params-docs.ts lines
549-669), carried by the remaining budget `maxDepth + 1 - depth` instead of
the rising `depth` (the two are in strict correspondence: the source guard
`depth > maxDepth` is `budget = 0`, and every recursive call passes
`depth + 1`, i.e. `budget - 1`).  Cases in source order: string, numeric,
boolean and null literals; parenthesized expressions; binary arithmetic on
two numeric reductions; unary negation of a numeric reduction; identifier
resolution through the checker; otherwise (and on every failed reduction) the
verbatim source text. -/
def resolveDefaultGo (checker : Option CheckerModel) :
    Nat → DefaultExpr → String
  | 0, e => srcOf e
  | budget + 1, e =>
    match e with
    | .strLit s => "\"" ++ s ++ "\""
    | .numLit n => toString n
    | .trueKw => "true"
    | .falseKw => "false"
    | .nullKw => "null"
    | .paren inner => resolveDefaultGo checker budget inner
    | .binary l op r =>
        let leftStr := resolveDefaultGo checker budget l
        let rightStr := resolveDefaultGo checker budget r
        if isNumericValue leftStr ∧ isNumericValue rightStr then
          match parseNumeric leftStr, parseNumeric rightStr with
          | some left, some right =>
              match applyOp op left right with
              | some result => toString result
              | none => srcOf e
          | _, _ => srcOf e
        else srcOf e
    | .neg inner =>
        let s := resolveDefaultGo checker budget inner
        match parseNumeric s with
        | some v => toString (-v)
        | none => srcOf e
    | .ident name =>
        match checker with
        | none => srcOf e
        | some c =>
            match c.typeStrOf name with
            | some str =>
                if str ≠ "" ∧ str ≠ "any" ∧ ¬ isIdentifierText str then str
                else
                  resolveIdentFallback (resolveDefaultGo checker budget)
                    c name (srcOf e)
            | none =>
                resolveIdentFallback (resolveDefaultGo checker budget)
                  c name (srcOf e)
    | .otherExpr _ => srcOf e

/-- `resolveDefaultValue` (src/bin/params-docs.ts lines 549-669): bounded
constant folding with the recursion depth capped at `maxDepth = 5`; a call at
`depth > maxDepth` returns the verbatim source text at once. -/
def resolveDefaultValue (checker : Option CheckerModel) (e : DefaultExpr)
    (depth : Nat) : String :=
  resolveDefaultGo checker (6 - depth) e

/-- The checker surrounding `const FOO = 60 * 2`: the inferred type of the
identifier prints as `number` (which the identifier-shaped-text test
rejects), and the declaration's initializer is the arithmetic expression. -/
def fooChecker : CheckerModel where
  typeStrOf := fun name => if name = "FOO" then some "number" else none
  declInitOf := fun name =>
    if name = "FOO" then some (.binary (.numLit 60) .star (.numLit 2)) else none

/-! ## Association-list lemmas -/

theorem lookupKey_nil {β : Type} (k : String) : lookupKey ([] : List (String × β)) k = none := rfl

theorem lookupKey_cons {β : Type} (e : String × β) (m : List (String × β)) (k : String) :
    lookupKey (e :: m) k = if e.1 = k then some e.2 else lookupKey m k := by
  by_cases h : e.1 = k <;> simp [lookupKey, List.find?_cons, h]

theorem lookupKey_eq_none_of_not_mem {β : Type} (m : List (String × β)) (k : String)
    (h : k ∉ m.map (·.1)) : lookupKey m k = none := by
  induction m with
  | nil => rfl
  | cons e rest ih =>
      simp only [List.map_cons, List.mem_cons] at h
      push_neg at h
      rw [lookupKey_cons, if_neg (fun he => h.1 he.symm), ih h.2]

theorem lookupKey_map_replace_self {β : Type} (m : List (String × β)) (k : String) (v : β)
    (h : m.any (fun e => e.1 = k) = true) :
    lookupKey (m.map (fun e => if e.1 = k then (k, v) else e)) k = some v := by
  induction m with
  | nil => simp at h
  | cons e rest ih =>
      by_cases he : e.1 = k
      · simp [List.map_cons, if_pos he, lookupKey_cons]
      · simp only [List.any_cons, he, Bool.false_or] at h
        simp only [List.map_cons, if_neg he, lookupKey_cons, if_neg he]
        exact ih (by simpa using h)

theorem lookupKey_map_replace_other {β : Type} (m : List (String × β)) (k : String) (v : β)
    (k' : String) (hk : k' ≠ k) :
    lookupKey (m.map (fun e => if e.1 = k then (k, v) else e)) k' = lookupKey m k' := by
  induction m with
  | nil => rfl
  | cons e rest ih =>
      by_cases he : e.1 = k
      · rw [List.map_cons, if_pos he, lookupKey_cons, lookupKey_cons, ih,
          if_neg (fun h : (k, v).1 = k' => hk h.symm),
          if_neg (fun h : e.1 = k' => hk (h.symm.trans he))]
      · rw [List.map_cons, if_neg he, lookupKey_cons, lookupKey_cons, ih]

theorem lookupKey_append {β : Type} (m₁ m₂ : List (String × β)) (k : String) :
    lookupKey (m₁ ++ m₂) k =
      match lookupKey m₁ k with
      | some v => some v
      | none => lookupKey m₂ k := by
  induction m₁ with
  | nil => rfl
  | cons e rest ih =>
      by_cases he : e.1 = k
      · rw [List.cons_append, lookupKey_cons, if_pos he, lookupKey_cons, if_pos he]
      · rw [List.cons_append, lookupKey_cons, if_neg he, lookupKey_cons, if_neg he, ih]

theorem lookupKey_setKey {β : Type} (m : List (String × β)) (k : String) (v : β)
    (k' : String) :
    lookupKey (setKey m k v) k' = if k' = k then some v else lookupKey m k' := by
  unfold setKey
  by_cases hany : m.any (fun e => e.1 = k) = true
  · rw [if_pos hany]
    by_cases hk : k' = k
    · rw [if_pos hk, hk, lookupKey_map_replace_self m k v hany]
    · rw [if_neg hk, lookupKey_map_replace_other m k v k' hk]
  · rw [if_neg hany, lookupKey_append]
    have hnone : lookupKey m k = none := by
      apply lookupKey_eq_none_of_not_mem
      intro hmem
      apply hany
      rw [List.any_eq_true]
      obtain ⟨e, he, hek⟩ := List.mem_map.mp hmem
      exact ⟨e, he, by simp [hek]⟩
    by_cases hk : k' = k
    · rw [if_pos hk, hk, hnone, lookupKey_cons]
      simp
    · rw [if_neg hk]
      cases h : lookupKey m k' with
      | some v => rfl
      | none =>
          rw [lookupKey_cons, if_neg (fun h : (k, v).1 = k' => hk h.symm)]
          rfl

theorem lookupKey_objAssign {β : Type} (overlay : List (String × β)) :
    ∀ base : List (String × β), (overlay.map (·.1)).Nodup → ∀ k,
    lookupKey (objAssign base overlay) k =
      match lookupKey overlay k with
      | some v => some v
      | none => lookupKey base k := by
  induction overlay with
  | nil => intro base _ k; rfl
  | cons e rest ih =>
      intro base hn k
      simp only [List.map_cons, List.nodup_cons] at hn
      have step : objAssign base (e :: rest) = objAssign (setKey base e.1 e.2) rest := rfl
      rw [step, ih (setKey base e.1 e.2) hn.2 k, lookupKey_cons]
      by_cases hk : e.1 = k
      · rw [if_pos hk]
        have : lookupKey rest k = none :=
          lookupKey_eq_none_of_not_mem rest k (by rw [← hk]; exact hn.1)
        rw [this, lookupKey_setKey, if_pos hk.symm]
      · rw [if_neg hk]
        cases h : lookupKey rest k with
        | some v => rfl
        | none => rw [lookupKey_setKey, if_neg (fun h => hk h.symm)]

theorem lookupKey_filter_out {β : Type} (m : List (String × β)) (k : String) :
    lookupKey (m.filter (fun e => !(decide (e.1 = k)))) k = none := by
  induction m with
  | nil => rfl
  | cons e rest ih =>
      by_cases he : e.1 = k
      · simpa [List.filter_cons, he] using ih
      · simpa [List.filter_cons, he, lookupKey_cons] using ih

/-! ## Claim C10 — log level clamping -/

theorem logVisible_eq_min (currentLevel : Int) (lv : LogLevelArg) :
    logVisible currentLevel lv = decide (min (logLevelNum lv) 2 ≥ currentLevel) := by
  have hw : parseLogLevel "warn" = 2 := by decide
  simp only [logVisible, hw]
  rcases le_or_lt (logLevelNum lv) 2 with h | h
  · rw [if_neg (by omega : ¬ logLevelNum lv > 2), min_eq_left h]
  · rw [if_pos h, min_eq_right (by omega : (2 : Int) ≤ logLevelNum lv)]

/-- C10: `log` clamps every message level above warn (2) down to 2 before the
comparison, so a message is emitted iff `min(level, 2) >= currentLevel`; with
the current level at error (3) or higher no `log` call is visible, even at
the error or emergency level. -/
theorem log_clamps_levels_spec :
    (∀ (currentLevel : Int) (lv : LogLevelArg),
      logVisible currentLevel lv = decide (min (logLevelNum lv) 2 ≥ currentLevel))
    ∧ (∀ (currentLevel : Int) (lv : LogLevelArg), 3 ≤ currentLevel →
      logVisible currentLevel lv = false) := by
  refine ⟨logVisible_eq_min, fun currentLevel lv h => ?_⟩
  rw [logVisible_eq_min]
  have : min (logLevelNum lv) 2 < currentLevel := by
    have := min_le_right (logLevelNum lv) (2 : Int)
    omega
  simpa [decide_eq_false_iff_not] using not_le.mpr this

/-- C10 witness: at current level 3 (error), calls at the error and emergency
levels — numeric or named — are all invisible. -/
theorem log_clamps_levels_spec_witness :
    logVisible 3 (.str "error") = false ∧ logVisible 3 (.str "emergency") = false
    ∧ logVisible 3 (.num 4) = false ∧ logVisible 4 (.num 3) = false :=
  ⟨log_clamps_levels_spec.2 3 (.str "error") (by norm_num),
   log_clamps_levels_spec.2 3 (.str "emergency") (by norm_num),
   log_clamps_levels_spec.2 3 (.num 4) (by norm_num),
   log_clamps_levels_spec.2 4 (.num 3) (by norm_num)⟩

/-! ## Claim C9 — runtime `parseParams` merge -/

/-- C9: for every defaults object and runtime parameter mapping, `parseParams`
returns the merge where a key of `cs.parameters` takes the runtime value, a
key only in the defaults keeps its default, and the returned object is also
published as `parsedParams` on the global context. -/
theorem parseParams_merge_spec (defaults runtime : List (String × String))
    (hd : (defaults.map (·.1)).Nodup) (hr : (runtime.map (·.1)).Nodup) :
    (∀ k, lookupKey (parseParams defaults (some runtime)).1 k =
      match lookupKey runtime k with
      | some v => some v
      | none => lookupKey defaults k)
    ∧ (parseParams defaults (some runtime)).2 =
        some (parseParams defaults (some runtime)).1 := by
  constructor
  · intro k
    show lookupKey (objAssign (objAssign [] defaults) runtime) k = _
    rw [lookupKey_objAssign runtime (objAssign [] defaults) hr k]
    cases h : lookupKey runtime k with
    | some v => rfl
    | none =>
        rw [lookupKey_objAssign defaults [] hd k]
        cases hd' : lookupKey defaults k <;> rfl
  · rfl

/-- C9 witness: with defaults `{a: "1", b: "2"}` and runtime parameters
`{b: "9"}`, the merge keeps `a = "1"`, overrides `b = "9"`, and publishes the
merged object. -/
theorem parseParams_merge_spec_witness :
    lookupKey (parseParams [("a", "1"), ("b", "2")] (some [("b", "9")])).1 "b" = some "9"
    ∧ lookupKey (parseParams [("a", "1"), ("b", "2")] (some [("b", "9")])).1 "a" = some "1"
    ∧ (parseParams [("a", "1"), ("b", "2")] (some [("b", "9")])).2 =
        some (parseParams [("a", "1"), ("b", "2")] (some [("b", "9")])).1 := by
  have h := parseParams_merge_spec [("a", "1"), ("b", "2")] [("b", "9")]
    (by decide) (by decide)
  exact ⟨(h.1 "b").trans (by decide), (h.1 "a").trans (by decide), h.2⟩

/-! ## Claim C5 — extraction cache idempotence and invalidation -/

/-- C5: a cache miss computes and stores the result; a second call with no
intervening invalidation returns exactly the stored object from the cache
without running the pipeline; after `clearParseParamsCacheEntry` the next
call recomputes from scratch. -/
theorem getParseParamsFromCode_hit {α : Type} (pipeline : String → Except Unit (List α))
    (resolvePath : String → String) (cache : List (String × List α))
    (entryFile : String) (r : List α)
    (hhit : lookupKey cache (resolvePath entryFile) = some r) :
    getParseParamsFromCode pipeline resolvePath cache entryFile =
      ⟨r, cache, false, false⟩ := by
  simp only [getParseParamsFromCode]
  rw [hhit]

theorem getParseParamsFromCode_miss_ok {α : Type} (pipeline : String → Except Unit (List α))
    (resolvePath : String → String) (cache : List (String × List α))
    (entryFile : String) (allCalls : List α)
    (hmiss : lookupKey cache (resolvePath entryFile) = none)
    (hp : pipeline entryFile = .ok allCalls) :
    getParseParamsFromCode pipeline resolvePath cache entryFile =
      ⟨allCalls, setKey cache (resolvePath entryFile) allCalls, true, false⟩ := by
  simp only [getParseParamsFromCode]
  rw [hmiss, hp]

theorem getParseParamsFromCode_miss_error {α : Type} (pipeline : String → Except Unit (List α))
    (resolvePath : String → String) (cache : List (String × List α))
    (entryFile : String)
    (hmiss : lookupKey cache (resolvePath entryFile) = none)
    (hp : pipeline entryFile = .error ()) :
    getParseParamsFromCode pipeline resolvePath cache entryFile =
      ⟨[], setKey cache (resolvePath entryFile) [], true, true⟩ := by
  simp only [getParseParamsFromCode]
  rw [hmiss, hp]

theorem clearParseParamsCacheEntry_lookup {α : Type} (resolvePath : String → String)
    (cache : List (String × List α)) (entryFile : String) :
    lookupKey (clearParseParamsCacheEntry resolvePath cache entryFile)
      (resolvePath entryFile) = none :=
  lookupKey_filter_out cache (resolvePath entryFile)

/-- C5: a cache miss computes and stores the result; a second call with no
intervening invalidation returns exactly the stored object from the cache
without running the pipeline; after `clearParseParamsCacheEntry` the next
call recomputes from scratch. -/
theorem cache_idempotence_spec {α : Type} (pipeline : String → Except Unit (List α))
    (resolvePath : String → String) (cache : List (String × List α))
    (entryFile : String)
    (hmiss : lookupKey cache (resolvePath entryFile) = none) :
    (getParseParamsFromCode pipeline resolvePath cache entryFile).computed = true
    ∧ lookupKey (getParseParamsFromCode pipeline resolvePath cache entryFile).cache
        (resolvePath entryFile) =
        some (getParseParamsFromCode pipeline resolvePath cache entryFile).result
    ∧ getParseParamsFromCode pipeline resolvePath
        (getParseParamsFromCode pipeline resolvePath cache entryFile).cache entryFile =
      ⟨(getParseParamsFromCode pipeline resolvePath cache entryFile).result,
       (getParseParamsFromCode pipeline resolvePath cache entryFile).cache,
       false, false⟩
    ∧ (getParseParamsFromCode pipeline resolvePath
        (clearParseParamsCacheEntry resolvePath
          (getParseParamsFromCode pipeline resolvePath cache entryFile).cache entryFile)
        entryFile).computed = true := by
  cases hp : pipeline entryFile with
  | ok allCalls =>
      rw [getParseParamsFromCode_miss_ok pipeline resolvePath cache entryFile allCalls hmiss hp]
      have hhit : lookupKey (setKey cache (resolvePath entryFile) allCalls)
          (resolvePath entryFile) = some allCalls := by
        rw [lookupKey_setKey]; simp
      refine ⟨rfl, hhit, ?_, ?_⟩
      · exact getParseParamsFromCode_hit pipeline resolvePath _ entryFile allCalls hhit
      · rw [getParseParamsFromCode_miss_ok pipeline resolvePath _ entryFile allCalls
          (clearParseParamsCacheEntry_lookup resolvePath _ entryFile) hp]
  | error err =>
      cases err
      rw [getParseParamsFromCode_miss_error pipeline resolvePath cache entryFile hmiss hp]
      have hhit : lookupKey (setKey cache (resolvePath entryFile) ([] : List α))
          (resolvePath entryFile) = some [] := by
        rw [lookupKey_setKey]; simp
      refine ⟨rfl, hhit, ?_, ?_⟩
      · exact getParseParamsFromCode_hit pipeline resolvePath _ entryFile [] hhit
      · rw [getParseParamsFromCode_miss_error pipeline resolvePath _ entryFile
          (clearParseParamsCacheEntry_lookup resolvePath _ entryFile) hp]

/-- C5 witness: a concrete pipeline over an empty cache — computed once,
cached, returned identically on the second call, recomputed after the entry
is cleared. -/
theorem cache_idempotence_spec_witness :
    (getParseParamsFromCode (fun _ => Except.ok [7]) id [] "/e.ts").computed = true
    ∧ getParseParamsFromCode (fun _ => Except.ok [7]) id
        (getParseParamsFromCode (fun _ => Except.ok [7]) id [] "/e.ts").cache "/e.ts" =
      ⟨(getParseParamsFromCode (fun _ => Except.ok [7]) id [] "/e.ts").result,
       (getParseParamsFromCode (fun _ => Except.ok [7]) id [] "/e.ts").cache,
       false, false⟩ := by
  have h := cache_idempotence_spec (fun _ => Except.ok [7]) id [] "/e.ts" (by rfl)
  exact ⟨h.1, h.2.2.1⟩

/-! ## Claim C6 — exception containment and failure caching

`getParseParamsFromCode` (and with it `analyzeParseParams` /
`analyzeParseParamsData`) wraps the whole pipeline in try/catch and caches the
empty result on failure.  `getSourceFilesFromEntry`, however, calls
`fs.readFileSync` with no surrounding try/catch (line 77), so a path that
exists but cannot be read (a directory, a permission error) makes the
exception escape this public entry point.  The claim is therefore corrected:
the no-escape guarantee holds for the driver entry points, not for
`getSourceFilesFromEntry`. -/

/-- C6 counterexample: on a filesystem whose entry path exists but cannot be
read, the exception thrown by `fs.readFileSync` escapes
`getSourceFilesFromEntry` — refuting "no exception escapes the engine's
public entry points" for this entry point. -/
theorem entrypoint_exception_counterexample :
    getSourceFilesFromEntryE [("/proj/dir", none)] "/proj/dir" =
      Except.error () := rfl

/-- C6 (amended): no exception escapes the driver entry points
(`getParseParamsFromCode`, hence `analyzeParseParams` and
`analyzeParseParamsData`) or the cache-clearing functions: a whole-pipeline
failure produces the warning and the empty result, and that empty result is
stored in the cache under the entry's resolved path before being returned, so
a second call returns it from the cache without re-attempting the pipeline.
(`getSourceFilesFromEntry` itself is exempted: see the counterexample.) -/
theorem driver_failure_caching_spec {α : Type} (pipeline : String → Except Unit (List α))
    (resolvePath : String → String) (cache : List (String × List α))
    (entryFile : String)
    (hmiss : lookupKey cache (resolvePath entryFile) = none)
    (hfail : pipeline entryFile = .error ()) :
    (getParseParamsFromCode pipeline resolvePath cache entryFile).result = []
    ∧ (getParseParamsFromCode pipeline resolvePath cache entryFile).warned = true
    ∧ lookupKey (getParseParamsFromCode pipeline resolvePath cache entryFile).cache
        (resolvePath entryFile) = some []
    ∧ getParseParamsFromCode pipeline resolvePath
        (getParseParamsFromCode pipeline resolvePath cache entryFile).cache entryFile =
      ⟨[], (getParseParamsFromCode pipeline resolvePath cache entryFile).cache,
       false, false⟩
    ∧ analyzeParseParamsData pipeline resolvePath cache entryFile =
        getParseParamsFromCode pipeline resolvePath cache entryFile := by
  rw [getParseParamsFromCode_miss_error pipeline resolvePath cache entryFile hmiss hfail]
  have hhit : lookupKey (setKey cache (resolvePath entryFile) ([] : List α))
      (resolvePath entryFile) = some [] := by
    rw [lookupKey_setKey]; simp
  refine ⟨rfl, rfl, hhit, ?_, ?_⟩
  · exact getParseParamsFromCode_hit pipeline resolvePath _ entryFile [] hhit
  · rw [analyzeParseParamsData,
      getParseParamsFromCode_miss_error pipeline resolvePath cache entryFile hmiss hfail]

/-- C6 witness: a concretely failing pipeline on an empty cache — empty
result, warning, empty result cached, second call served from the cache. -/
theorem driver_failure_caching_spec_witness :
    (getParseParamsFromCode (fun _ => (Except.error () : Except Unit (List Nat)))
        id [] "/bad.ts").result = []
    ∧ (getParseParamsFromCode (fun _ => (Except.error () : Except Unit (List Nat)))
        id [] "/bad.ts").warned = true
    ∧ getParseParamsFromCode (fun _ => (Except.error () : Except Unit (List Nat))) id
        (getParseParamsFromCode (fun _ => (Except.error () : Except Unit (List Nat)))
          id [] "/bad.ts").cache "/bad.ts" =
      ⟨[], (getParseParamsFromCode (fun _ => (Except.error () : Except Unit (List Nat)))
          id [] "/bad.ts").cache, false, false⟩ := by
  have h := driver_failure_caching_spec
    (fun _ => (Except.error () : Except Unit (List Nat))) id [] "/bad.ts"
    (by rfl) (by rfl)
  exact ⟨h.1, h.2.1, h.2.2.2.1⟩

/-! ## Claim C3 — default value reduction -/

/-- C3: `60 * 60 * 1000` reduces to `3600000`; `-5` reduces to `-5`; an
identifier declared `const FOO = 60 * 2` reduces through the declaration's
initializer to `120`; and every call past the recursion-depth cap of 5
returns the verbatim source text unchanged. -/
theorem resolveDefaultValue_reduction_spec :
    resolveDefaultValue none
      (.binary (.binary (.numLit 60) .star (.numLit 60)) .star (.numLit 1000)) 0 =
      "3600000"
    ∧ resolveDefaultValue none (.neg (.numLit 5)) 0 = "-5"
    ∧ resolveDefaultValue (some fooChecker) (.ident "FOO") 0 = "120"
    ∧ ∀ (checker : Option CheckerModel) (e : DefaultExpr) (depth : Nat),
        depth > 5 → resolveDefaultValue checker e depth = srcOf e := by
  refine ⟨by decide, by decide, by decide, fun checker e depth h => ?_⟩
  have h0 : 6 - depth = 0 := by omega
  rw [resolveDefaultValue, h0]
  rfl

/-- C3 witness: a call at depth 6 (beyond the cap) returns the verbatim
source text of a still-reducible expression. -/
theorem resolveDefaultValue_reduction_spec_witness :
    resolveDefaultValue none (.binary (.numLit 2) .star (.numLit 3)) 6 =
      srcOf (.binary (.numLit 2) .star (.numLit 3))
    ∧ srcOf (.binary (.numLit 2) .star (.numLit 3)) = "2 * 3" :=
  ⟨resolveDefaultValue_reduction_spec.2.2.2 none
    (.binary (.numLit 2) .star (.numLit 3)) 6 (by norm_num), by decide⟩

/-! ## Claim C4 — division and modulo by zero are never performed -/

/-- C4: for a binary default-value expression with operator `/` or `%` whose
operands both reduce to numeric text and whose right operand reduces to 0,
the evaluator treats the expression as non-reducible and returns its verbatim
source text. -/
theorem resolveDefaultGo_binary (checker : Option CheckerModel) (budget : Nat)
    (l r : DefaultExpr) (op : BinOp) :
    resolveDefaultGo checker (budget + 1) (.binary l op r) =
      if isNumericValue (resolveDefaultGo checker budget l) ∧
         isNumericValue (resolveDefaultGo checker budget r) then
        match parseNumeric (resolveDefaultGo checker budget l),
              parseNumeric (resolveDefaultGo checker budget r) with
        | some left, some right =>
            match applyOp op left right with
            | some result => toString result
            | none => srcOf (.binary l op r)
        | _, _ => srcOf (.binary l op r)
      else srcOf (.binary l op r) := rfl

/-- C4: for a binary default-value expression with operator `/` or `%` whose
operands both reduce to numeric text and whose right operand reduces to 0,
the evaluator treats the expression as non-reducible and returns its verbatim
source text. -/
theorem divByZero_nonreducible_spec (checker : Option CheckerModel)
    (l r : DefaultExpr) (op : BinOp) (depth : Nat)
    (hop : op = .slash ∨ op = .percent)
    (hl : isNumericValue (resolveDefaultValue checker l (depth + 1)) = true)
    (hr : parseNumeric (resolveDefaultValue checker r (depth + 1)) = some 0) :
    resolveDefaultValue checker (.binary l op r) depth =
      srcOf (.binary l op r) := by
  by_cases hd : depth > 5
  · rw [resolveDefaultValue, show 6 - depth = 0 by omega]
    rfl
  · rw [resolveDefaultValue, show 6 - depth = (6 - (depth + 1)) + 1 by omega,
      resolveDefaultGo_binary]
    have el : resolveDefaultGo checker (6 - (depth + 1)) l =
        resolveDefaultValue checker l (depth + 1) := rfl
    have er : resolveDefaultGo checker (6 - (depth + 1)) r =
        resolveDefaultValue checker r (depth + 1) := rfl
    rw [el, er]
    have hrnum : isNumericValue (resolveDefaultValue checker r (depth + 1)) = true := by
      unfold isNumericValue
      rw [hr]
      rfl
    rw [if_pos ⟨hl, hrnum⟩]
    obtain ⟨left, hleft⟩ :=
      Option.isSome_iff_exists.mp (by simpa [isNumericValue] using hl)
    rw [hleft, hr]
    have happ : applyOp op left 0 = none := by
      rcases hop with h | h <;> subst h <;> simp [applyOp]
    show (match applyOp op left 0 with
      | some result => toString result
      | none => srcOf (.binary l op r)) = srcOf (.binary l op r)
    rw [happ]

/-- C4 witness: `1 / 0` and `1 % 0` come back as verbatim text, not as a
computed value. -/
theorem divByZero_nonreducible_spec_witness :
    resolveDefaultValue none (.binary (.numLit 1) .slash (.numLit 0)) 0 = "1 / 0"
    ∧ resolveDefaultValue none (.binary (.numLit 1) .percent (.numLit 0)) 0 = "1 % 0" := by
  constructor
  · have h := divByZero_nonreducible_spec none (.numLit 1) (.numLit 0) .slash 0
      (Or.inl rfl) (by decide) (by decide)
    exact h.trans (by decide)
  · have h := divByZero_nonreducible_spec none (.numLit 1) (.numLit 0) .percent 0
      (Or.inr rfl) (by decide) (by decide)
    exact h.trans (by decide)

/-! ## Claim C2 — union classification

The `for (const t of type.types)` loop skips a branch whose display is empty
or `"any"` and still joins the remaining primitives, so a union with one
non-reducible branch does **not** degrade to `unknown`/`any`; it degrades
only when no branch at all reduces to a primitive.  The claim is corrected
accordingly. -/

theorem leafClass_cases (b : TSType) (c : String) (h : leafClass b = some c) :
    c = "string" ∨ c = "number" ∨ c = "boolean" := by
  cases b with
  | strLit i v => exact Or.inl (Option.some.inj h).symm
  | numLit i v => exact Or.inr (Or.inl (Option.some.inj h).symm)
  | boolLit i v => exact Or.inr (Or.inr (Option.some.inj h).symm)
  | flagged i f =>
      simp only [leafClass] at h
      by_cases h4 : f &&& 4 ≠ 0
      · rw [if_pos h4] at h
        exact Or.inl (Option.some.inj h).symm
      · rw [if_neg h4] at h
        by_cases h8 : f &&& 8 ≠ 0
        · rw [if_pos h8] at h
          exact Or.inr (Or.inl (Option.some.inj h).symm)
        · rw [if_neg h8] at h
          by_cases h16 : f &&& 16 ≠ 0
          · rw [if_pos h16] at h
            exact Or.inr (Or.inr (Option.some.inj h).symm)
          · rw [if_neg h16] at h
            exact absurd h (by simp)
  | unionTy i bs => exact absurd h (by simp [leafClass])
  | aliasTy i d => exact absurd h (by simp [leafClass])
  | otherTy i => exact absurd h (by simp [leafClass])

theorem addParts_prim (parts : List String) (c : String)
    (h : c = "string" ∨ c = "number" ∨ c = "boolean") :
    addParts parts c = addPart parts c := by
  rcases h with h | h | h <;> subst h <;> rfl

theorem ggtd_simple (b : TSType) (seen : List Nat) (hb : isSimpleBranch b = true)
    (hid : idOf b ∉ seen) :
    getGenericTypeDisplay b seen = ((leafClass b).getD "", idOf b :: seen) := by
  simp only [idOf] at hid
  cases b with
  | unionTy i bs => simp [isSimpleBranch] at hb
  | aliasTy i d => simp [isSimpleBranch] at hb
  | strLit i v => simp [getGenericTypeDisplay, leafClass, idOf, hid]
  | numLit i v => simp [getGenericTypeDisplay, leafClass, idOf, hid]
  | boolLit i v => simp [getGenericTypeDisplay, leafClass, idOf, hid]
  | otherTy i => simp [getGenericTypeDisplay, leafClass, idOf, hid]
  | flagged i f =>
      simp only [getGenericTypeDisplay, leafClass, idOf]
      rw [if_neg hid]
      by_cases h4 : f &&& 4 ≠ 0
      · simp [h4]
      · by_cases h8 : f &&& 8 ≠ 0
        · simp [h4, h8]
        · by_cases h16 : f &&& 16 ≠ 0
          · simp [h4, h8, h16]
          · simp [h4, h8, h16]

theorem displayBranches_simple :
    ∀ (bs : List TSType) (parts : List String) (seen : List Nat),
    (∀ b ∈ bs, isSimpleBranch b = true) → (bs.map idOf).Nodup →
    (∀ b ∈ bs, idOf b ∉ seen) →
    (displayBranches bs parts seen).1 = (bs.filterMap leafClass).foldl addPart parts := by
  intro bs
  induction bs with
  | nil => intro parts seen _ _ _; rfl
  | cons b rest ih =>
      intro parts seen hs hn hf
      have hb := hs b (List.mem_cons_self b rest)
      have hfb := hf b (List.mem_cons_self b rest)
      simp only [List.map_cons, List.nodup_cons] at hn
      have hfr : ∀ x ∈ rest, idOf x ∉ idOf b :: seen := by
        intro x hx
        simp only [List.mem_cons]
        push_neg
        refine ⟨fun he => hn.1 ?_, hf x (List.mem_cons_of_mem b hx)⟩
        rw [← he]
        exact List.mem_map_of_mem idOf hx
      rw [displayBranches, ggtd_simple b seen hb hfb]
      cases hc : leafClass b with
      | none =>
          simp only [hc, Option.getD_none, List.filterMap_cons, hc]
          rw [if_neg (by simp)]
          exact ih parts (idOf b :: seen) (fun x hx => hs x (List.mem_cons_of_mem b hx))
            hn.2 hfr
      | some c =>
          have hcm := leafClass_cases b c hc
          have hne : c ≠ "" ∧ c ≠ "any" := by
            rcases hcm with h | h | h <;> subst h <;> exact ⟨by decide, by decide⟩
          simp only [hc, Option.getD_some, List.filterMap_cons]
          rw [if_pos hne, addParts_prim parts c hcm]
          exact ih (addPart parts c) (idOf b :: seen)
            (fun x hx => hs x (List.mem_cons_of_mem b hx)) hn.2 hfr

/-- C2 counterexample: the union `string | {object}` — one branch reduces to
`string`, the other branch is not reducible to a primitive — is classified
`"string"`, not `unknown` (rendered `"any"` by this code): the claim's
"degrades whenever some branch is not reducible" is false on the code. -/
theorem union_degrade_counterexample :
    (getGenericTypeDisplay (.unionTy 0 [.flagged 1 4, .otherTy 2]) []).1 = "string"
    ∧ "string" ≠ "unknown" ∧ "string" ≠ "any" := by decide

/-- C2 (amended): a union of branches is classified as the sorted,
deduplicated union of the classifications of those branches that reduce to a
primitive, and it degrades to the unknown classification (rendered `"any"`)
exactly when **no** branch reduces to a primitive — not when merely some
branch fails to. -/
theorem union_display_spec (uid : Nat) (bs : List TSType) (seen : List Nat)
    (hsimple : ∀ b ∈ bs, isSimpleBranch b = true)
    (hids : (bs.map idOf).Nodup)
    (hfresh : ∀ b ∈ bs, idOf b ∉ seen ∧ idOf b ≠ uid)
    (huid : uid ∉ seen) :
    (getGenericTypeDisplay (.unionTy uid bs) seen).1 =
      if sortStr (dedupFirst (bs.filterMap leafClass)) = [] then "any"
      else joinBar (sortStr (dedupFirst (bs.filterMap leafClass))) := by
  have hfr : ∀ b ∈ bs, idOf b ∉ uid :: seen := by
    intro b hb
    simp only [List.mem_cons]
    push_neg
    exact ⟨(hfresh b hb).2, (hfresh b hb).1⟩
  simp only [getGenericTypeDisplay, idOf]
  rw [if_neg huid]
  simp only
  rw [show (displayBranches bs [] (uid :: seen)).1 =
      (bs.filterMap leafClass).foldl addPart [] from
    displayBranches_simple bs [] (uid :: seen) hsimple hids hfr]
  rfl

/-- C2 witness for the amended claim: `"x" | number-flagged | {object}`
classifies as `"number | string"` — the sorted deduplicated union of the
reducible branches. -/
theorem union_display_spec_witness :
    (getGenericTypeDisplay
      (.unionTy 0 [.strLit 1 "x", .flagged 2 8, .otherTy 3]) []).1 =
      "number | string" := by
  have h := union_display_spec 0 [.strLit 1 "x", .flagged 2 8, .otherTy 3] []
    (by decide) (by decide) (by decide) (by decide)
  exact h.trans (by decide)

/-! ## Claim C7 — `password` only ever replaces `string`

Key invariant: no string `getGenericTypeDisplay` can produce contains the
character `p` (the possible outputs are built from `""`, `"any"`, `"string"`,
`"number"`, `"boolean"` and `" | "`-joins of their parts), so the display is
never `"password"` on its own; only the explicit reclassification in
`expandTypeToParamRows` introduces it, and it requires a `"string"`
classification plus the sensitivity tag. -/

theorem string_data_append (a b : String) : (a ++ b).data = a.data ++ b.data := by
  cases a
  cases b
  rfl

theorem mem_insertSorted (s : String) (l : List String) (x : String)
    (h : x ∈ insertSorted s l) : x = s ∨ x ∈ l := by
  induction l with
  | nil => simpa [insertSorted] using h
  | cons t ts ih =>
      unfold insertSorted at h
      by_cases hle : strLe s t = true
      · rw [if_pos hle] at h
        simpa using h
      · rw [if_neg hle] at h
        rcases List.mem_cons.mp h with h | h
        · exact Or.inr (h ▸ List.mem_cons_self t ts)
        · rcases ih h with h | h
          · exact Or.inl h
          · exact Or.inr (List.mem_cons_of_mem t h)

theorem mem_sortStr (l : List String) (x : String) (h : x ∈ sortStr l) : x ∈ l := by
  induction l with
  | nil => simp [sortStr] at h
  | cons t ts ih =>
      rcases mem_insertSorted t (sortStr ts) x h with h | h
      · exact h ▸ List.mem_cons_self t ts
      · exact List.mem_cons_of_mem t (ih h)

theorem mem_addPart (parts : List String) (s : String) (x : String)
    (h : x ∈ addPart parts s) : x ∈ parts ∨ x = s := by
  unfold addPart at h
  split at h
  · exact Or.inl h
  · split at h
    · exact Or.inl h
    · rcases List.mem_append.mp h with h | h
      · exact Or.inl h
      · exact Or.inr (by simpa using h)

theorem splitOnPipe_chars (l : List Char) (piece : List Char)
    (hp : piece ∈ splitOnPipe l) : ∀ c ∈ piece, c ∈ l := by
  induction l generalizing piece with
  | nil =>
      intro c hc
      simp only [splitOnPipe, List.mem_singleton] at hp
      subst hp
      simp at hc
  | cons d rest ih =>
      intro c hc
      unfold splitOnPipe at hp
      by_cases hd : d = '|'
      · rw [if_pos hd] at hp
        rcases List.mem_cons.mp hp with h | h
        · subst h; simp at hc
        · exact List.mem_cons_of_mem d (ih piece h c hc)
      · rw [if_neg hd] at hp
        cases hrest : splitOnPipe rest with
        | nil =>
            rw [hrest] at hp
            simp only [List.mem_singleton] at hp
            subst hp
            have hcd : c = d := by simpa using hc
            exact hcd ▸ List.mem_cons_self d rest
        | cons piece0 ps =>
            rw [hrest] at hp
            rcases List.mem_cons.mp hp with h | h
            · subst h
              rcases List.mem_cons.mp hc with h | h
              · exact h ▸ List.mem_cons_self d rest
              · exact List.mem_cons_of_mem d
                  (ih piece0 (hrest ▸ List.mem_cons_self piece0 ps) c h)
            · exact List.mem_cons_of_mem d
                (ih piece (hrest ▸ List.mem_cons_of_mem piece0 h) c hc)

theorem mem_of_mem_dropWhile {α : Type} (p : α → Bool) (l : List α) (x : α)
    (h : x ∈ l.dropWhile p) : x ∈ l := by
  induction l with
  | nil => simp at h
  | cons a as ih =>
      rw [List.dropWhile_cons] at h
      split at h
      · exact List.mem_cons_of_mem a (ih h)
      · exact h

theorem mem_of_mem_trimChars (l : List Char) (c : Char) (h : c ∈ trimChars l) :
    c ∈ l := by
  unfold trimChars at h
  rw [List.mem_reverse] at h
  have h1 := mem_of_mem_dropWhile isSpaceChar _ c h
  rw [List.mem_reverse] at h1
  exact mem_of_mem_dropWhile isSpaceChar l c h1

theorem joinBar_no_p (l : List String) (h : ∀ x ∈ l, 'p' ∉ x.data) :
    'p' ∉ (joinBar l).data := by
  induction l with
  | nil => simp [joinBar]
  | cons s rest ih =>
      cases rest with
      | nil =>
          have hj : joinBar [s] = s := rfl
          rw [hj]
          exact h s (List.mem_cons_self s [])
      | cons t ts =>
          have hj : joinBar (s :: t :: ts) = s ++ " | " ++ joinBar (t :: ts) := rfl
          rw [hj, string_data_append, string_data_append]
          intro hin
          rcases List.mem_append.mp hin with hin | hin
          · rcases List.mem_append.mp hin with hin | hin
            · exact h s (List.mem_cons_self s (t :: ts)) hin
            · simp at hin
          · exact ih (fun x hx => h x (List.mem_cons_of_mem s hx)) hin

theorem foldl_addPart_trim_no_p :
    ∀ (pieces : List String) (parts : List String),
    (∀ q ∈ pieces, 'p' ∉ (trimStr q).data) → (∀ x ∈ parts, 'p' ∉ x.data) →
    ∀ x ∈ pieces.foldl (fun ps q => addPart ps (trimStr q)) parts, 'p' ∉ x.data := by
  intro pieces
  induction pieces with
  | nil => intro parts _ hparts x hx; exact hparts x hx
  | cons q qs ih =>
      intro parts hq hparts x hx
      refine ih (addPart parts (trimStr q))
        (fun r hr => hq r (List.mem_cons_of_mem q hr)) ?_ x hx
      intro y hy
      rcases mem_addPart parts (trimStr q) y hy with h | h
      · exact hparts y h
      · exact h ▸ hq q (List.mem_cons_self q qs)

theorem addParts_no_p (parts : List String) (r : String)
    (hr : 'p' ∉ r.data) (hparts : ∀ x ∈ parts, 'p' ∉ x.data) :
    ∀ x ∈ addParts parts r, 'p' ∉ x.data := by
  have hpieces : ∀ q ∈ splitBar r, 'p' ∉ (trimStr q).data := by
    intro q hq hin
    apply hr
    unfold splitBar at hq
    obtain ⟨chars, hchars, hmk⟩ := List.mem_map.mp hq
    subst hmk
    have hc : 'p' ∈ chars :=
      mem_of_mem_trimChars chars 'p' (by simpa [trimStr, String.toList] using hin)
    have := splitOnPipe_chars r.toList chars hchars 'p' hc
    simpa [String.toList] using this
  exact foldl_addPart_trim_no_p (splitBar r) parts hpieces hparts

theorem displayBranches_no_p (bs : List TSType)
    (hbs : ∀ b ∈ bs, ∀ s2 : List Nat, 'p' ∉ ((getGenericTypeDisplay b s2).1).data) :
    ∀ (parts : List String) (seen : List Nat),
    (∀ x ∈ parts, 'p' ∉ x.data) →
    ∀ x ∈ (displayBranches bs parts seen).1, 'p' ∉ x.data := by
  induction bs with
  | nil => intro parts seen hparts x hx; exact hparts x hx
  | cons b rest ih =>
      intro parts seen hparts x hx
      rw [displayBranches] at hx
      refine ih (fun b2 hb2 s2 => hbs b2 (List.mem_cons_of_mem b hb2) s2) _ _ ?_ x hx
      intro y hy
      split at hy
      · exact addParts_no_p parts (getGenericTypeDisplay b seen).1
          (hbs b (List.mem_cons_self b rest) seen) hparts y hy
      · exact hparts y hy

theorem ggtd_no_p : ∀ (n : Nat) (t : TSType), sizeOf t ≤ n →
    ∀ seen : List Nat, 'p' ∉ ((getGenericTypeDisplay t seen).1).data := by
  intro n
  induction n using Nat.strong_induction_on with
  | _ n IH =>
    intro t ht seen
    rw [getGenericTypeDisplay]
    split
    · simp
    · cases t with
      | unionTy i bs =>
          simp only
          have hbs : ∀ b ∈ bs, ∀ s2 : List Nat,
              'p' ∉ ((getGenericTypeDisplay b s2).1).data := by
            intro b hb s2
            have hlt : sizeOf b < sizeOf (TSType.unionTy i bs) := by
              have h1 := List.sizeOf_lt_of_mem hb
              simp only [TSType.unionTy.sizeOf_spec]
              omega
            exact IH (sizeOf b) (by omega) b le_rfl s2
          have hparts : ∀ x ∈ (displayBranches bs [] (i :: seen)).1, 'p' ∉ x.data :=
            displayBranches_no_p bs hbs [] (i :: seen) (by simp)
          split
          · simp
          · exact joinBar_no_p _ (fun x hx => hparts x (mem_sortStr _ x hx))
      | strLit i v => simp
      | numLit i v => simp
      | boolLit i v => simp
      | flagged i f =>
          simp only
          split
          · simp
          · split
            · simp
            · split
              · simp
              · simp
      | aliasTy i d =>
          simp only
          have hd : 'p' ∉ ((getGenericTypeDisplay d (i :: seen)).1).data := by
            have hlt : sizeOf d < sizeOf (TSType.aliasTy i d) := by
              simp only [TSType.aliasTy.sizeOf_spec]
              omega
            exact IH (sizeOf d) (by omega) d le_rfl (i :: seen)
          split
          · exact hd
          · simp
      | otherTy i => simp

theorem ggtd_ne_password (t : TSType) (seen : List Nat) :
    (getGenericTypeDisplay t seen).1 ≠ "password" := by
  intro h
  have := ggtd_no_p (sizeOf t) t le_rfl seen
  rw [h] at this
  exact this (by decide)

theorem orAny_ggtd_ne_password (t : TSType) :
    orAny (getGenericTypeDisplay t []).1 ≠ "password" := by
  unfold orAny
  split
  · decide
  · exact ggtd_ne_password t []

theorem rowOfProp_typeStr (p : PropSym) :
    (rowOfProp p).typeStr =
      if p.jsdoc.password ∧ orAny (getGenericTypeDisplay p.propType []).1 = "string"
      then "password"
      else orAny (getGenericTypeDisplay p.propType []).1 := rfl

theorem rowOfProp_name (p : PropSym) : (rowOfProp p).name = p.name := rfl

theorem propRowsAux_eq :
    ∀ (props : List PropSym) (seen : List String) (rows : List ParamRow),
    (propRowsAux props seen rows).2 = rows ++ (dedupByNameAux props seen).map rowOfProp := by
  intro props
  induction props with
  | nil => intro seen rows; simp [propRowsAux, dedupByNameAux]
  | cons p rest ih =>
      intro seen rows
      rw [propRowsAux, dedupByNameAux]
      by_cases hn : p.name ∈ seen
      · rw [if_pos hn]
        have ha : addProp seen rows (rowOfProp p) = (seen, rows) := by
          unfold addProp
          rw [if_pos (by rw [rowOfProp_name]; exact hn)]
        rw [ha, ih]
      · rw [if_neg hn]
        have ha : addProp seen rows (rowOfProp p) =
            (p.name :: seen, rows ++ [rowOfProp p]) := by
          unfold addProp
          rw [if_neg (by rw [rowOfProp_name]; exact hn), rowOfProp_name]
        rw [ha, ih]
        simp

theorem dedupByNameAux_subset :
    ∀ (props : List PropSym) (seen : List String) (p : PropSym),
    p ∈ dedupByNameAux props seen → p ∈ props := by
  intro props
  induction props with
  | nil => intro seen p h; simp [dedupByNameAux] at h
  | cons q rest ih =>
      intro seen p h
      rw [dedupByNameAux] at h
      split at h
      · exact List.mem_cons_of_mem q (ih seen p h)
      · rcases List.mem_cons.mp h with h | h
        · exact h ▸ List.mem_cons_self q rest
        · exact List.mem_cons_of_mem q (ih (q.name :: seen) p h)

theorem propRowsOf_eq (props : List PropSym) :
    propRowsOf props = (dedupByName props).map rowOfProp := by
  unfold propRowsOf dedupByName
  rw [propRowsAux_eq props [] []]
  simp

theorem mem_propRowsOf (props : List PropSym) (r : ParamRow)
    (h : r ∈ propRowsOf props) : ∃ p ∈ props, r = rowOfProp p := by
  rw [propRowsOf_eq] at h
  obtain ⟨p, hp, hr⟩ := List.mem_map.mp h
  exact ⟨p, dedupByNameAux_subset props [] p hp, hr.symm⟩

theorem mem_indexRowsOf (t : ExpandedType) (r : ParamRow)
    (h : r ∈ indexRowsOf t) : ∃ name ty, r = indexRow name ty := by
  unfold indexRowsOf at h
  rcases List.mem_append.mp h with h | h
  · cases hs : t.stringIndex with
    | none => rw [hs] at h; simp at h
    | some ty =>
        rw [hs] at h
        simp only [List.mem_singleton] at h
        exact ⟨"[key: string]", ty, h⟩
  · cases hs : t.numberIndex with
    | none => rw [hs] at h; simp at h
    | some ty =>
        rw [hs] at h
        simp only [List.mem_singleton] at h
        exact ⟨"[key: number]", ty, h⟩

/-- C7: in every expanded field row, `password` only ever replaces a `string`
classification: a row classified `password` comes from a property that
carries the sensitivity tag and whose primitive classification is `string`;
a tagged property classified `string` is reclassified `password`; and a
property whose classification is not `string` keeps that classification,
tag or no tag. -/
theorem password_only_replaces_string_spec (t : ExpandedType) :
    (∀ r ∈ expandTypeToParamRows t, r.typeStr = "password" →
      ∃ p ∈ t.props, p.name = r.name ∧ p.jsdoc.password = true ∧
        orAny (getGenericTypeDisplay p.propType []).1 = "string")
    ∧ (∀ p : PropSym, p.jsdoc.password = true →
        orAny (getGenericTypeDisplay p.propType []).1 = "string" →
        (rowOfProp p).typeStr = "password")
    ∧ (∀ p : PropSym, orAny (getGenericTypeDisplay p.propType []).1 ≠ "string" →
        (rowOfProp p).typeStr = orAny (getGenericTypeDisplay p.propType []).1) := by
  refine ⟨?_, ?_, ?_⟩
  · intro r hr hps
    rcases List.mem_append.mp hr with hm | hm
    · obtain ⟨p, hp, hrp⟩ := mem_propRowsOf t.props r hm
      subst hrp
      rw [rowOfProp_typeStr] at hps
      split at hps
      · rename_i hcond
        exact ⟨p, hp, (rowOfProp_name p).symm, by simpa using hcond.1, hcond.2⟩
      · exact absurd hps (orAny_ggtd_ne_password p.propType)
    · obtain ⟨name, ty, hrp⟩ := mem_indexRowsOf t r hm
      subst hrp
      exact absurd hps (orAny_ggtd_ne_password ty)
  · intro p htag hstr
    rw [rowOfProp_typeStr, if_pos ⟨by simpa using htag, hstr⟩]
  · intro p hnstr
    rw [rowOfProp_typeStr, if_neg (fun hcond => hnstr hcond.2)]

/-- C7 witness: the sensitivity tag turns a `string` property into
`password`, while the same tag on a `number` property leaves it `number`. -/
theorem password_only_replaces_string_spec_witness :
    (rowOfProp ⟨"secret", false, .flagged 1 4, ⟨"", "", true⟩⟩).typeStr = "password"
    ∧ (rowOfProp ⟨"port", false, .flagged 2 8, ⟨"", "", true⟩⟩).typeStr = "number" := by
  have h := password_only_replaces_string_spec ⟨[], none, none⟩
  exact ⟨h.2.1 ⟨"secret", false, .flagged 1 4, ⟨"", "", true⟩⟩ rfl (by decide),
    (h.2.2 ⟨"port", false, .flagged 2 8, ⟨"", "", true⟩⟩ (by decide)).trans (by decide)⟩

/-! ## Claim C8 — field-name dedup

`addProp` dedups the declared property rows on first-seen name, but the
synthetic index-signature rows (lines 503-527) are pushed directly, without
the `seen` check, so a property literally named `[key: string]` together with
a string index signature yields two rows of the same name.  The claim is
corrected to scope the at-most-once guarantee to the property rows. -/

theorem dedupByNameAux_names :
    ∀ (props : List PropSym) (seen : List String),
    ((dedupByNameAux props seen).map (·.name)).Nodup
    ∧ ∀ q ∈ dedupByNameAux props seen, q.name ∉ seen := by
  intro props
  induction props with
  | nil => intro seen; simp [dedupByNameAux]
  | cons p rest ih =>
      intro seen
      rw [dedupByNameAux]
      by_cases hn : p.name ∈ seen
      · rw [if_pos hn]
        exact ih seen
      · rw [if_neg hn]
        have ih2 := ih (p.name :: seen)
        constructor
        · simp only [List.map_cons, List.nodup_cons]
          refine ⟨?_, ih2.1⟩
          intro hmem
          obtain ⟨q, hq, hqn⟩ := List.mem_map.mp hmem
          exact (ih2.2 q hq) (hqn ▸ List.mem_cons_self p.name seen)
        · intro q hq
          rcases List.mem_cons.mp hq with h | h
          · exact h ▸ hn
          · exact fun hmem =>
              (ih2.2 q h) (List.mem_cons_of_mem p.name hmem)

/-- C8 counterexample: a type with a property literally named
`[key: string]` **and** a string index signature produces two rows with the
same name — the index-signature row bypasses the `addProp` dedup — refuting
"every field name appears at most once" for the whole expanded list. -/
theorem field_name_dup_counterexample :
    ¬ (((expandTypeToParamRows
        ⟨[⟨"[key: string]", false, .flagged 1 4, ⟨"", "", false⟩⟩],
          some (.flagged 2 4), none⟩).map (·.name)).Nodup) := by decide

/-- C8 (amended): among the declared-property rows of one expansion, every
field name appears at most once — a repeated name keeps only the first-seen
definition, in source declaration order — and the whole expanded list keeps
that guarantee whenever there is no index signature; the synthetic
index-signature rows are appended without the dedup check. -/
theorem field_dedup_spec (t : ExpandedType) :
    ((propRowsOf t.props).map (·.name)).Nodup
    ∧ propRowsOf t.props = (dedupByName t.props).map rowOfProp
    ∧ (t.stringIndex = none → t.numberIndex = none →
        ((expandTypeToParamRows t).map (·.name)).Nodup) := by
  have hnames : (propRowsOf t.props).map (·.name) =
      (dedupByName t.props).map (·.name) := by
    rw [propRowsOf_eq, List.map_map]
    rfl
  refine ⟨?_, propRowsOf_eq t.props, ?_⟩
  · rw [hnames]
    exact (dedupByNameAux_names t.props []).1
  · intro hs hn
    have hidx : indexRowsOf t = [] := by
      unfold indexRowsOf
      rw [hs, hn]
      rfl
    unfold expandTypeToParamRows
    rw [hidx, List.append_nil, hnames]
    exact (dedupByNameAux_names t.props []).1

/-- C8 witness: two properties both named `id` (as an intersection of two
shapes would produce) yield exactly one row, the first-seen (string-typed)
definition, and the full expansion without index signatures has no duplicate
names. -/
theorem field_dedup_spec_witness :
    ((expandTypeToParamRows
        ⟨[⟨"id", false, .flagged 1 4, ⟨"", "", false⟩⟩,
          ⟨"id", true, .flagged 2 8, ⟨"", "", false⟩⟩], none, none⟩).map
      (·.name)).Nodup
    ∧ propRowsOf
        [⟨"id", false, .flagged 1 4, ⟨"", "", false⟩⟩,
         ⟨"id", true, .flagged 2 8, ⟨"", "", false⟩⟩] =
      [rowOfProp ⟨"id", false, .flagged 1 4, ⟨"", "", false⟩⟩] := by
  have h := field_dedup_spec
    ⟨[⟨"id", false, .flagged 1 4, ⟨"", "", false⟩⟩,
      ⟨"id", true, .flagged 2 8, ⟨"", "", false⟩⟩], none, none⟩
  exact ⟨h.2.2 rfl rfl, h.2.1.trans (by decide)⟩

/-! ## Claim C1 — module graph resolution

The depth-first walk of `collectImports` terminates on every (possibly
cyclic) import graph: the embedding's fuel argument is irrelevant above the
number of existing files (`collect_fuel_stable`), and the walk visits each
reachable existing file exactly once, entry first. -/

/-- State evolution of the walk: the visited set only grows and the result
list is only appended to. -/
def StLe (st st' : List String × List String) : Prop :=
  (∀ x ∈ st.1, x ∈ st'.1) ∧ ∃ tl, st'.2 = st.2 ++ tl

theorem StLe.refl (st : List String × List String) : StLe st st :=
  ⟨fun _ hx => hx, [], by simp⟩

theorem StLe.trans {a b c : List String × List String}
    (h1 : StLe a b) (h2 : StLe b c) : StLe a c := by
  obtain ⟨hv1, t1, hr1⟩ := h1
  obtain ⟨hv2, t2, hr2⟩ := h2
  exact ⟨fun x hx => hv2 x (hv1 x hx), t1 ++ t2, by rw [hr2, hr1, List.append_assoc]⟩

theorem foldl_step_rel {α St : Type} (R : St → St → Prop)
    (hrefl : ∀ x, R x x)
    (htrans : ∀ x y z, R x y → R y z → R x z)
    (g : St → α → St) (hg : ∀ st a, R st (g st a)) :
    ∀ (l : List α) (st : St), R st (l.foldl g st) := by
  intro l
  induction l with
  | nil => intro st; exact hrefl st
  | cons a as ih => intro st; exact htrans _ _ _ (hg st a) (ih (g st a))

theorem collectImports_visited (fs : Graph) (fuel : Nat) (p : String)
    (st : List String × List String) (hp : p ∈ st.1) :
    collectImports fs (fuel + 1) p st = st := by
  rw [collectImports, if_pos hp]

theorem collectImports_nonexistent (fs : Graph) (fuel : Nat) (p : String)
    (st : List String × List String) (hp : p ∉ st.1)
    (h : readImports fs p = none) :
    collectImports fs (fuel + 1) p st = (p :: st.1, st.2) := by
  rw [collectImports, if_neg hp, h]

theorem collectImports_existing (fs : Graph) (fuel : Nat) (p : String)
    (st : List String × List String) (imps : List String) (hp : p ∉ st.1)
    (h : readImports fs p = some imps) :
    collectImports fs (fuel + 1) p st =
      imps.foldl (fun acc imp => collectImports fs fuel imp acc)
        (p :: st.1, st.2 ++ [p]) := by
  rw [collectImports, if_neg hp, h]

theorem collect_mono (fs : Graph) :
    ∀ (fuel : Nat) (p : String) (st : List String × List String),
    StLe st (collectImports fs fuel p st) := by
  intro fuel
  induction fuel with
  | zero => intro p st; exact StLe.refl st
  | succ n ih =>
      intro p st
      by_cases hp : p ∈ st.1
      · rw [collectImports_visited fs n p st hp]
        exact StLe.refl st
      · cases h : readImports fs p with
        | none =>
            rw [collectImports_nonexistent fs n p st hp h]
            exact ⟨fun x hx => List.mem_cons_of_mem p hx, [], by simp⟩
        | some imps =>
            rw [collectImports_existing fs n p st imps hp h]
            have hstep : StLe st (p :: st.1, st.2 ++ [p]) :=
              ⟨fun x hx => List.mem_cons_of_mem p hx, [p], rfl⟩
            exact StLe.trans hstep
              (foldl_step_rel StLe StLe.refl (fun _ _ _ => StLe.trans)
                (fun acc imp => collectImports fs n imp acc)
                (fun acc imp => ih imp acc) imps (p :: st.1, st.2 ++ [p]))

theorem fold_mono (fs : Graph) (fuel : Nat) (imps : List String)
    (st : List String × List String) :
    StLe st (imps.foldl (fun acc imp => collectImports fs fuel imp acc) st) :=
  foldl_step_rel StLe StLe.refl (fun _ _ _ => StLe.trans)
    (fun acc imp => collectImports fs fuel imp acc)
    (fun acc imp => collect_mono fs fuel imp acc) imps st

theorem filter_not_mem_anti (v v' : List String) (hsub : ∀ x ∈ v, x ∈ v') :
    ∀ l : List String,
    (l.filter (fun k => !(decide (k ∈ v')))).length ≤
      (l.filter (fun k => !(decide (k ∈ v)))).length := by
  intro l
  induction l with
  | nil => simp
  | cons k rest ih =>
      by_cases hk : k ∈ v'
      · rw [List.filter_cons_of_neg (by simp [hk])]
        by_cases hk2 : k ∈ v
        · rw [List.filter_cons_of_neg (by simp [hk2])]
          exact ih
        · rw [List.filter_cons_of_pos (by simp [hk2])]
          simp only [List.length_cons]
          omega
      · have hk2 : k ∉ v := fun h => hk (hsub k h)
        rw [List.filter_cons_of_pos (by simp [hk]),
          List.filter_cons_of_pos (by simp [hk2])]
        simp only [List.length_cons]
        omega

theorem unvisited_anti (fs : Graph) (v v' : List String)
    (hsub : ∀ x ∈ v, x ∈ v') :
    unvisitedCount fs v' ≤ unvisitedCount fs v :=
  filter_not_mem_anti v v' hsub (graphKeys fs)

theorem filter_not_mem_strict (p : String) (v : List String) (hpv : p ∉ v) :
    ∀ l : List String, p ∈ l →
    (l.filter (fun k => !(decide (k ∈ p :: v)))).length <
      (l.filter (fun k => !(decide (k ∈ v)))).length := by
  intro l
  induction l with
  | nil => simp
  | cons k rest ih =>
      intro hp
      by_cases hkeq : k = p
      · subst hkeq
        rw [List.filter_cons_of_neg (by simp),
          List.filter_cons_of_pos (by simp [hpv])]
        have := filter_not_mem_anti v (k :: v)
          (fun x hx => List.mem_cons_of_mem k hx) rest
        simp only [List.length_cons]
        omega
      · have hp2 : p ∈ rest := by
          rcases List.mem_cons.mp hp with h | h
          · exact absurd h.symm hkeq
          · exact h
        by_cases hkv : k ∈ v
        · rw [List.filter_cons_of_neg
            (by simp [List.mem_cons_of_mem p hkv]),
            List.filter_cons_of_neg (by simp [hkv])]
          exact ih hp2
        · have hkv2 : k ∉ p :: v := by
            simp [List.mem_cons, hkeq, hkv]
          rw [List.filter_cons_of_pos (by simp [hkv2]),
            List.filter_cons_of_pos (by simp [hkv])]
          simp only [List.length_cons]
          have := ih hp2
          omega

theorem readImports_mem_keys (fs : Graph) (p : String) (imps : List String)
    (h : readImports fs p = some imps) : p ∈ graphKeys fs := by
  unfold readImports at h
  cases hf : fs.find? (fun e => e.1 = p) with
  | none => rw [hf] at h; simp at h
  | some e =>
      have he := List.find?_some hf
      have hmem := List.mem_of_find?_eq_some hf
      simp only [decide_eq_true_eq] at he
      rw [← he]
      exact List.mem_map_of_mem (·.1) hmem

theorem unvisited_strict (fs : Graph) (p : String) (v : List String)
    (hpk : p ∈ graphKeys fs) (hpv : p ∉ v) :
    unvisitedCount fs (p :: v) < unvisitedCount fs v :=
  filter_not_mem_strict p v hpv (graphKeys fs) hpk

theorem unvisited_le_length (fs : Graph) (v : List String) :
    unvisitedCount fs v ≤ fs.length := by
  unfold unvisitedCount
  calc ((graphKeys fs).filter _).length ≤ (graphKeys fs).length :=
        List.length_filter_le _ _
    _ = fs.length := List.length_map fs (·.1)

theorem collect_fuel_eq (fs : Graph) :
    ∀ (fuel : Nat) (p : String) (st : List String × List String),
    unvisitedCount fs st.1 < fuel →
    collectImports fs (fuel + 1) p st = collectImports fs fuel p st := by
  intro fuel
  induction fuel with
  | zero => intro p st h; omega
  | succ n ih =>
      intro p st h
      by_cases hp : p ∈ st.1
      · rw [collectImports_visited fs (n + 1) p st hp,
          collectImports_visited fs n p st hp]
      · cases hread : readImports fs p with
        | none =>
            rw [collectImports_nonexistent fs (n + 1) p st hp hread,
              collectImports_nonexistent fs n p st hp hread]
        | some imps =>
            rw [collectImports_existing fs (n + 1) p st imps hp hread,
              collectImports_existing fs n p st imps hp hread]
            have hpk := readImports_mem_keys fs p imps hread
            have hlt : unvisitedCount fs (p :: st.1) < n := by
              have := unvisited_strict fs p st.1 hpk hp
              omega
            have hfold : ∀ (l : List String)
                (acc : List String × List String),
                unvisitedCount fs acc.1 < n →
                l.foldl (fun a i => collectImports fs (n + 1) i a) acc =
                l.foldl (fun a i => collectImports fs n i a) acc := by
              intro l
              induction l with
              | nil => intro acc _; rfl
              | cons i rest ihl =>
                  intro acc hacc
                  simp only [List.foldl_cons]
                  rw [ih i acc hacc]
                  apply ihl
                  have hmono := (collect_mono fs n i acc).1
                  have := unvisited_anti fs acc.1
                    (collectImports fs n i acc).1 hmono
                  omega
            exact hfold imps (p :: st.1, st.2 ++ [p]) hlt

theorem collect_fuel_add (fs : Graph) (d : Nat) :
    ∀ (fuel : Nat) (p : String) (st : List String × List String),
    unvisitedCount fs st.1 < fuel →
    collectImports fs (fuel + d) p st = collectImports fs fuel p st := by
  induction d with
  | zero => intro fuel p st _; rfl
  | succ k ih =>
      intro fuel p st h
      have : fuel + (k + 1) = (fuel + k) + 1 := by omega
      rw [this, collect_fuel_eq fs (fuel + k) p st (by omega), ih fuel p st h]

/-- Postconditions of one `collectImports` call with sufficient fuel: the
target is visited; every newly visited existing file has all its imports
visited; every newly visited file is reachable from the target; every new
result entry is a newly visited existing file reachable from the target; and
the invariants "visited existing files are in the result" and "the result is
duplicate-free and within the visited set" are preserved. -/
theorem collect_post (fs : Graph) :
    ∀ (fuel : Nat) (p : String) (st st' : List String × List String),
    unvisitedCount fs st.1 < fuel →
    st' = collectImports fs fuel p st →
    p ∈ st'.1
    ∧ (∀ x, x ∈ st'.1 → x ∉ st.1 →
        ∀ imps, readImports fs x = some imps → ∀ y ∈ imps, y ∈ st'.1)
    ∧ (∀ x, x ∈ st'.1 → x ∉ st.1 → Reachable fs p x)
    ∧ (∀ x, x ∈ st'.2 → x ∈ st.2 ∨
        (x ∉ st.1 ∧ readImports fs x ≠ none ∧ Reachable fs p x))
    ∧ ((∀ x ∈ st.1, readImports fs x ≠ none → x ∈ st.2) →
        (∀ x ∈ st'.1, readImports fs x ≠ none → x ∈ st'.2))
    ∧ ((st.2.Nodup ∧ ∀ x ∈ st.2, x ∈ st.1) →
        (st'.2.Nodup ∧ ∀ x ∈ st'.2, x ∈ st'.1)) := by
  intro fuel
  induction fuel with
  | zero => intro p st st' h; omega
  | succ n ih =>
      intro p st st' hunv hst'
      by_cases hp : p ∈ st.1
      · rw [collectImports_visited fs n p st hp] at hst'
        subst hst'
        exact ⟨hp, fun x _ hnx _ h => absurd h (by intro _; exact hnx (by assumption)),
          fun x hx hnx => absurd hx hnx,
          fun x hx => Or.inl hx, fun h => h, fun h => h⟩
      · cases hread : readImports fs p with
        | none =>
            rw [collectImports_nonexistent fs n p st hp hread] at hst'
            subst hst'
            refine ⟨List.mem_cons_self p st.1, ?_, ?_, ?_, ?_, ?_⟩
            · intro x hx hnx imps hri
              rcases List.mem_cons.mp hx with h | h
              · subst h
                rw [hread] at hri
                exact absurd hri (by simp)
              · exact absurd h hnx
            · intro x hx hnx
              rcases List.mem_cons.mp hx with h | h
              · subst h
                exact Relation.ReflTransGen.refl
              · exact absurd h hnx
            · intro x hx
              exact Or.inl hx
            · intro hpre x hx hri
              rcases List.mem_cons.mp hx with h | h
              · subst h
                rw [hread] at hri
                exact absurd rfl hri
              · exact hpre x h hri
            · intro hpre
              exact ⟨hpre.1, fun x hx => List.mem_cons_of_mem p (hpre.2 x hx)⟩
        | some imps =>
            rw [collectImports_existing fs n p st imps hp hread] at hst'
            have hpk := readImports_mem_keys fs p imps hread
            have hunv0 : unvisitedCount fs (p :: st.1) < n := by
              have := unvisited_strict fs p st.1 hpk hp
              omega
            -- the loop over the imports of one freshly visited file
            have hfold : ∀ (l : List String)
                (acc accF : List String × List String),
                unvisitedCount fs acc.1 < n →
                accF = l.foldl (fun a i => collectImports fs n i a) acc →
                (∀ y ∈ l, y ∈ accF.1)
                ∧ (∀ x, x ∈ accF.1 → x ∉ acc.1 →
                    ∀ imps2, readImports fs x = some imps2 →
                      ∀ y ∈ imps2, y ∈ accF.1)
                ∧ (∀ x, x ∈ accF.1 → x ∉ acc.1 → ∃ y ∈ l, Reachable fs y x)
                ∧ (∀ x, x ∈ accF.2 → x ∈ acc.2 ∨
                    (x ∉ acc.1 ∧ readImports fs x ≠ none ∧
                      ∃ y ∈ l, Reachable fs y x))
                ∧ ((∀ x ∈ acc.1, readImports fs x ≠ none → x ∈ acc.2) →
                    (∀ x ∈ accF.1, readImports fs x ≠ none → x ∈ accF.2))
                ∧ ((acc.2.Nodup ∧ ∀ x ∈ acc.2, x ∈ acc.1) →
                    (accF.2.Nodup ∧ ∀ x ∈ accF.2, x ∈ accF.1)) := by
              intro l
              induction l with
              | nil =>
                  intro acc accF _ hacc
                  subst hacc
                  exact ⟨by simp, fun x hx hnx => absurd hx hnx,
                    fun x hx hnx => absurd hx hnx,
                    fun x hx => Or.inl hx, fun h => h, fun h => h⟩
              | cons i rest ihl =>
                  intro acc accF hacc haccF
                  simp only [List.foldl_cons] at haccF
                  have hnode := ih i acc (collectImports fs n i acc) hacc rfl
                  have hmono1 := collect_mono fs n i acc
                  have hunv1 : unvisitedCount fs (collectImports fs n i acc).1 < n := by
                    have := unvisited_anti fs acc.1 (collectImports fs n i acc).1
                      hmono1.1
                    omega
                  have hrest := ihl (collectImports fs n i acc) accF hunv1 haccF
                  have hmonoF : StLe (collectImports fs n i acc) accF := by
                    rw [haccF]
                    exact fold_mono fs n rest (collectImports fs n i acc)
                  refine ⟨?_, ?_, ?_, ?_, ?_, ?_⟩
                  · intro y hy
                    rcases List.mem_cons.mp hy with h | h
                    · subst h
                      exact hmonoF.1 y hnode.1
                    · exact hrest.1 y h
                  · intro x hx hnx imps2 hri y hy
                    by_cases hxa : x ∈ (collectImports fs n i acc).1
                    · exact hmonoF.1 y (hnode.2.1 x hxa hnx imps2 hri y hy)
                    · exact hrest.2.1 x hx hxa imps2 hri y hy
                  · intro x hx hnx
                    by_cases hxa : x ∈ (collectImports fs n i acc).1
                    · exact ⟨i, List.mem_cons_self i rest,
                        hnode.2.2.1 x hxa hnx⟩
                    · obtain ⟨y, hyr, hreach⟩ := hrest.2.2.1 x hx hxa
                      exact ⟨y, List.mem_cons_of_mem i hyr, hreach⟩
                  · intro x hx
                    rcases hrest.2.2.2.1 x hx with hin | ⟨hnacc, hlook, y, hyr, hreach⟩
                    · rcases hnode.2.2.2.1 x hin with h | ⟨hnst, hlook, hreach⟩
                      · exact Or.inl h
                      · exact Or.inr ⟨hnst, hlook,
                          i, List.mem_cons_self i rest, hreach⟩
                    · exact Or.inr ⟨fun h => hnacc (hmono1.1 x h), hlook,
                        y, List.mem_cons_of_mem i hyr, hreach⟩
                  · intro hpre
                    exact hrest.2.2.2.2.1 (hnode.2.2.2.2.1 hpre)
                  · intro hpre
                    exact hrest.2.2.2.2.2 (hnode.2.2.2.2.2 hpre)
            have hF := hfold imps (p :: st.1, st.2 ++ [p]) st' hunv0 hst'
            have hmono0 : StLe (p :: st.1, st.2 ++ [p]) st' := by
              rw [hst']
              exact fold_mono fs n imps (p :: st.1, st.2 ++ [p])
            have hpin : p ∈ st'.1 := hmono0.1 p (List.mem_cons_self p st.1)
            refine ⟨hpin, ?_, ?_, ?_, ?_, ?_⟩
            · intro x hx hnx imps2 hri y hy
              by_cases hxp : x = p
              · subst hxp
                rw [hread] at hri
                have : imps2 = imps := (Option.some.inj hri).symm
                subst this
                exact hF.1 y hy
              · have hnx0 : x ∉ p :: st.1 := by
                  simp only [List.mem_cons]
                  push_neg
                  exact ⟨hxp, hnx⟩
                exact hF.2.1 x hx hnx0 imps2 hri y hy
            · intro x hx hnx
              by_cases hxp : x = p
              · subst hxp
                exact Relation.ReflTransGen.refl
              · have hnx0 : x ∉ p :: st.1 := by
                  simp only [List.mem_cons]
                  push_neg
                  exact ⟨hxp, hnx⟩
                obtain ⟨y, hyi, hreach⟩ := hF.2.2.1 x hx hnx0
                exact Relation.ReflTransGen.head ⟨imps, hread, hyi⟩ hreach
            · intro x hx
              rcases hF.2.2.2.1 x hx with hin | ⟨hnacc, hlook, y, hyi, hreach⟩
              · rcases List.mem_append.mp hin with h | h
                · exact Or.inl h
                · have hxp : x = p := by simpa using h
                  subst hxp
                  exact Or.inr ⟨hp, by rw [hread]; simp,
                    Relation.ReflTransGen.refl⟩
              · refine Or.inr ⟨fun h => hnacc (List.mem_cons_of_mem p h),
                  hlook, ?_⟩
                exact Relation.ReflTransGen.head ⟨imps, hread, hyi⟩ hreach
            · intro hpre
              apply hF.2.2.2.2.1
              intro x hx hri
              rcases List.mem_cons.mp hx with h | h
              · subst h
                exact List.mem_append.mpr (Or.inr (by simp))
              · exact List.mem_append.mpr (Or.inl (hpre x h hri))
            · intro hpre
              apply hF.2.2.2.2.2
              constructor
              · rw [List.nodup_append]
                exact ⟨hpre.1, List.nodup_singleton p,
                  fun x hx => by
                    simp only [List.mem_singleton]
                    intro hxp
                    subst hxp
                    exact hp (hpre.2 x hx)⟩
              · intro x hx
                rcases List.mem_append.mp hx with h | h
                · exact List.mem_cons_of_mem p (hpre.2 x h)
                · have hxp2 : x = p := by simpa using h
                  rw [hxp2]
                  exact List.mem_cons_self p st.1

/-- C1: for every entry file, even on a cyclic local-import graph,
`getSourceFilesFromEntry` terminates (the embedding's fuel is irrelevant from
`fs.length + 1` up) and returns a duplicate-free list containing exactly the
reachable existing files, with the entry first; its result order is the
depth-first first-visit order of `collectImports`, and a call on an
already-visited file returns the state unchanged — no re-scan, no re-add. -/
theorem getSourceFilesFromEntry_spec (fs : Graph) (entryFile : String) :
    (∀ F, fs.length + 1 ≤ F →
      (collectImports fs F entryFile ([], [])).2 =
        getSourceFilesFromEntry fs entryFile)
    ∧ (getSourceFilesFromEntry fs entryFile).Nodup
    ∧ (readImports fs entryFile ≠ none →
        (getSourceFilesFromEntry fs entryFile).head? = some entryFile)
    ∧ (∀ x, x ∈ getSourceFilesFromEntry fs entryFile ↔
        (readImports fs x ≠ none ∧ Reachable fs entryFile x))
    ∧ (∀ (fuel : Nat) (st : List String × List String) (p : String),
        p ∈ st.1 → collectImports fs (fuel + 1) p st = st) := by
  have hunv : unvisitedCount fs (([], []) : List String × List String).1 <
      fs.length + 1 := by
    have := unvisited_le_length fs ([] : List String)
    simpa using by omega
  have hpost := collect_post fs (fs.length + 1) entryFile ([], [])
    (collectImports fs (fs.length + 1) entryFile ([], [])) hunv rfl
  refine ⟨?_, ?_, ?_, ?_, ?_⟩
  · intro F hF
    unfold getSourceFilesFromEntry
    have hFd : F = (fs.length + 1) + (F - (fs.length + 1)) := by omega
    rw [hFd, collect_fuel_add fs (F - (fs.length + 1)) (fs.length + 1)
      entryFile ([], []) hunv]
  · exact (hpost.2.2.2.2.2 ⟨List.nodup_nil, by simp⟩).1
  · intro hex
    cases hread : readImports fs entryFile with
    | none => exact absurd hread hex
    | some imps =>
        unfold getSourceFilesFromEntry
        rw [collectImports_existing fs fs.length entryFile ([], []) imps
          (by simp) hread]
        obtain ⟨-, tl, htl⟩ :=
          fold_mono fs fs.length imps (entryFile :: [], [] ++ [entryFile])
        rw [htl]
        simp
  · intro x
    constructor
    · intro hx
      rcases hpost.2.2.2.1 x hx with h | ⟨_, hlook, hreach⟩
      · simp at h
      · exact ⟨hlook, hreach⟩
    · rintro ⟨hlook, hreach⟩
      have hvis : ∀ y, Reachable fs entryFile y →
          y ∈ (collectImports fs (fs.length + 1) entryFile ([], [])).1 := by
        intro y hy
        induction hy with
        | refl => exact hpost.1
        | tail hab hbc ih2 =>
            obtain ⟨imps, hri, hmem⟩ := hbc
            exact hpost.2.1 _ ih2 (by simp) imps hri _ hmem
      exact hpost.2.2.2.2.1 (by simp) x (hvis x hreach) hlook
  · intro fuel st p hp
    exact collectImports_visited fs fuel p st hp

/-- C1 witness: a concrete cyclic import graph `a → b → {a, c}`, `c → b`
resolves to `["a", "b", "c"]` — terminating, duplicate-free, entry first, in
first-visit order; extra fuel changes nothing, `c` is certified reachable and
existing, and a call on a visited file is the identity. -/
theorem getSourceFilesFromEntry_spec_witness :
    getSourceFilesFromEntry [("a", ["b"]), ("b", ["a", "c"]), ("c", ["b"])] "a" =
      ["a", "b", "c"]
    ∧ (getSourceFilesFromEntry
        [("a", ["b"]), ("b", ["a", "c"]), ("c", ["b"])] "a").Nodup
    ∧ (getSourceFilesFromEntry
        [("a", ["b"]), ("b", ["a", "c"]), ("c", ["b"])] "a").head? = some "a"
    ∧ (collectImports [("a", ["b"]), ("b", ["a", "c"]), ("c", ["b"])] 10 "a"
        ([], [])).2 =
      getSourceFilesFromEntry [("a", ["b"]), ("b", ["a", "c"]), ("c", ["b"])] "a"
    ∧ (readImports [("a", ["b"]), ("b", ["a", "c"]), ("c", ["b"])] "c" ≠ none ∧
        Reachable [("a", ["b"]), ("b", ["a", "c"]), ("c", ["b"])] "a" "c")
    ∧ collectImports [("a", ["b"]), ("b", ["a", "c"]), ("c", ["b"])] 5 "a"
        (["a"], ["a"]) = (["a"], ["a"]) := by
  have h := getSourceFilesFromEntry_spec
    [("a", ["b"]), ("b", ["a", "c"]), ("c", ["b"])] "a"
  exact ⟨by decide, h.2.1, h.2.2.1 (by decide), h.1 10 (by norm_num),
    (h.2.2.2.1 "c").mp (by decide),
    h.2.2.2.2 4 (["a"], ["a"]) "a" (by decide)⟩

end CsHelper
